import Mathlib

/-!
Shallow embedding of the query resolution engine of the DjangoMiniatureGalleryApp
repository (models.py and searches.py), together with proofs about the claims of
its specification.

The datastore is modelled as an in-memory snapshot `Db` holding the rows of each
table; Django querysets become list filters over that snapshot, and Django model
objects are identified with their rows (model equality in Django is primary-key
equality).  Python `set`s of Batch objects become `Finset Nat` of batch primary
keys.  The two `while` loops of `models.py` (`is_category_safe` and
`get_category_batches`) are embedded with an explicit fuel argument of
`number of category rows + 1`; the theorems below show that this fuel never runs
out on the cases the claims speak about.
-/

namespace DMG

/-! ## Data model (rows of the tables used by the search engine) -/

structure Tag where
  tid : Nat
  name : String
deriving DecidableEq

structure Category where
  cid : Nat
  name : String
  parent : Option Nat
deriving DecidableEq

structure Unit where
  uid : Nat
  name : String
  category : Nat
  points : Int
  utype : String
deriving DecidableEq

structure Kit where
  kid : Nat
  name : String
deriving DecidableEq

structure Batch where
  bid : Nat
  kit_id : Nat
  unit_id : Nat
  count : Nat
  stage : Nat
deriving DecidableEq

structure TagAssignment where
  tag_id : Nat
  batch_id : Nat
deriving DecidableEq

structure Db where
  tags : List Tag
  categories : List Category
  units : List Unit
  kits : List Kit
  batches : List Batch
  assignments : List TagAssignment
deriving DecidableEq

/-! ## String helpers (Python string semantics, on `List Char`) -/

/-- Python `str.lower` on a single character (ASCII, as in Lean core). -/
def chLower (c : Char) : Char := c.toLower

/-- Python `str.lower` of a whole string. -/
def strLower (s : String) : String := String.mk (s.data.map Char.toLower)

/-- Membership test of a substring: Python `needle in hay` (on raw char lists). -/
def subList (needle : List Char) : List Char → Bool
  | [] => needle.isEmpty
  | c :: t => needle.isPrefixOf (c :: t) || subList needle t

/-- Django `name__icontains`: case-insensitive substring containment. -/
def icontains (hay needle : String) : Bool :=
  subList (needle.data.map Char.toLower) (hay.data.map Char.toLower)

/-- Python `str.capitalize()`: first character uppercased, the rest lowercased. -/
def pyCapitalize (s : String) : String :=
  match s.data with
  | [] => ""
  | c :: cs => String.mk (c.toUpper :: cs.map Char.toLower)

/-- The punctuation class stripped by the input sanitizer (searches.py line 5). -/
def PUNCTIUATION_STRIP : List Char :=
  [' ', ',', '.', '/', '<', '>', '?', ';', '\x27', ':', '"', '\\', '[', ']',
   '\x7d', '\x7b', '|', '=', '-', '\x60', '~', '_', '+', ')', '(', '*', '&',
   '^', '%', '$', '#', '@', '!']

/-- Python `str.strip(chars)`: drop characters of `chars` from both ends. -/
def pyStrip (chars : List Char) (s : List Char) : List Char :=
  ((s.dropWhile (fun c => chars.contains c)).reverse.dropWhile
    (fun c => chars.contains c)).reverse

/-- Python `str.replace(a, b)` for single characters. -/
def replaceChar (a b : Char) (s : List Char) : List Char :=
  s.map (fun c => if c = a then b else c)

/-- Python `str.split(",")`: split at every comma, keeping empty pieces. -/
def splitComma : List Char → List (List Char)
  | [] => [[]]
  | c :: rest =>
      let r := splitComma rest
      if c = ',' then [] :: r
      else
        match r with
        | h :: t => (c :: h) :: t
        | [] => [[c]]

def MAX_STRING : Nat := 128

/-! ## Input sanitizer (searches.py) -/

/-- searches.py `parse_search_string`: truncate to 128 characters, strip the
punctuation class, turn space and angle brackets into comma delimiters and
underscores into spaces, split on commas, strip each piece, drop empties. -/
def parse_search_string (tag_string : String) : List String :=
  let s := if tag_string.length > MAX_STRING then tag_string.data.take MAX_STRING
           else tag_string.data
  if s = [] then []
  else
    let s := pyStrip PUNCTIUATION_STRIP s
    let s := replaceChar ' ' ',' s
    let s := replaceChar '<' ',' s
    let s := replaceChar '>' ',' s
    let s := replaceChar '_' ' ' s
    let pieces := (splitComma s).map (pyStrip PUNCTIUATION_STRIP)
    (pieces.filter (fun p => p ≠ [])).map String.mk

/-- searches.py `is_valid_search_string` (for a non-null string). -/
def is_valid_search_string (tag_string : String) : Bool :=
  pyStrip PUNCTIUATION_STRIP tag_string.data ≠ []

/-! ## Category tree guard (models.py `Category`) -/

/-- Follow a category's `parent` foreign key: look the id up in the table and
read its `parent` column (`None` when the row is absent or parentless). -/
def parentOf (db : Db) (i : Nat) : Option Nat :=
  match db.categories.find? (fun c => decide (c.cid = i)) with
  | some c => c.parent
  | none => none

/-- The `k`-th ancestor of category id `j` along the parent chain
(`none` once the chain has ended). -/
def ancestor (db : Db) (j : Nat) : Nat → Option Nat
  | 0 => some j
  | k + 1 => (ancestor db j k).bind (parentOf db)

/-- The parent chain starting at `j` is finite and acyclic: it eventually ends
(at a parentless root). -/
def FiniteChain (db : Db) (j : Nat) : Prop := ∃ k, ancestor db j k = none

/-- The parent chain starting at `j` revisits some node: `j` lies on a cycle or
transitively reaches one. -/
def HitsCycle (db : Db) (j : Nat) : Prop :=
  ∃ x a b, a < b ∧ ancestor db j a = some x ∧ ancestor db j b = some x

/-- `x` is `r` itself or a descendant of `r`: its parent chain reaches `r`. -/
def Descendant (db : Db) (x r : Nat) : Prop := ∃ k, ancestor db x k = some r

/-- The list of nodes visited by the parent-chain walk after `t` steps
(`[j, parent j, parent (parent j), ...]`, as long as the chain is alive). -/
def visList (db : Db) (j : Nat) (t : Nat) : List Nat :=
  (List.range t).filterMap (ancestor db j)

/-- The loop of models.py `Category.is_category_safe`, with explicit fuel:
append the next node to the visited list, report a loop when it was already
visited, otherwise follow its parent. -/
def safeLoop (db : Db) : List Nat → Option Nat → Nat → Bool
  | _, _, 0 => true
  | _, none, _ + 1 => true
  | visited, some c, fuel + 1 =>
      if 1 < (visited ++ [c]).count c then false
      else safeLoop db (visited ++ [c]) (parentOf db c) fuel

/-- models.py `Category.is_category_safe`: walk the parent chain with a visited
list seeded with `self`, returning false as soon as a node repeats.  The loop
visits pairwise distinct nodes of the table, so `length + 1` rounds always
suffice to reach the verdict. -/
def is_category_safe (db : Db) (self : Category) : Bool :=
  safeLoop db [self.cid] self.parent (db.categories.length + 1)

/-- Direct children of category id `i` (`Category.objects.filter(parent=i)`). -/
def childrenOf (db : Db) (i : Nat) : List Category :=
  db.categories.filter (fun c => decide (c.parent = some i))

/-- Look a unit row up by primary key. -/
def lookupUnit (db : Db) (uid : Nat) : Option Unit :=
  db.units.find? (fun u => decide (u.uid = uid))

/-- `Batch.objects.filter(unit_id__category=i)`: batches whose unit row has
category `i`. -/
def batchesOfCategory (db : Db) (i : Nat) : List Batch :=
  db.batches.filter (fun b =>
    match lookupUnit db b.unit_id with
    | some u => decide (u.category = i)
    | none => false)

/-- The explicit-stack loop of models.py `Category.get_category_batches`,
with explicit fuel: pop the top of the stack, push its children, and append the
batches of the popped category.  Python pops from the end of the list. -/
def dfsLoop (db : Db) : List Batch → List Nat → Nat → List Batch
  | acc, _, 0 => acc
  | acc, stack, fuel + 1 =>
      match stack.getLast? with
      | none => acc
      | some curr =>
          dfsLoop db (acc ++ batchesOfCategory db curr)
            (stack.dropLast ++ (childrenOf db curr).map (fun c => c.cid)) fuel

/-- models.py `Category.get_category_batches`: empty when the safety check
fails, otherwise a depth-first traversal collecting the batches of the whole
subtree.  Each subtree category is popped exactly once, so `length + 1` rounds
always suffice. -/
def get_category_batches (db : Db) (self : Category) : List Batch :=
  if is_category_safe db self = false then []
  else dfsLoop db [] [self.cid] (db.categories.length + 1)

/-- Bounded descendant test: the parent chain from `x` reaches `r` within
`number of categories` steps (enough for any chain through distinct rows). -/
def descB (db : Db) (x r : Nat) : Bool :=
  (List.range (db.categories.length + 1)).any
    (fun k => ancestor db x k == some r)

/-- The finite set of category ids of the table lying in the subtree below
`r` (including `r` itself when it is in the table). -/
def subtreeF (db : Db) (r : Nat) : Finset Nat :=
  ((db.categories.map (fun c => c.cid)).filter (fun x => descB db x r)).toFinset

/-- Union of the subtrees below each root in `l`. -/
def unionS (db : Db) (l : List Nat) : Finset Nat :=
  l.foldr (fun j A => subtreeF db j ∪ A) ∅

/-- Termination measure of the depth-first traversal: the total size of the
subtrees still to be visited. -/
def measureOf (db : Db) (l : List Nat) : Nat :=
  (l.map (fun j => (subtreeF db j).card)).sum

/-! ## Entity classifiers (models.py) -/

/-- models.py `Tag.get_tag_via_name`: `Tag.objects.get(name=tag_name)` —
exact (case-sensitive) name equality; `get` yields the row only when exactly
one row matches, and the caller turns the two exceptions into `None`. -/
def get_tag_via_name (db : Db) (tag_name : String) : Option Tag :=
  match db.tags.filter (fun t => decide (t.name = tag_name)) with
  | [t] => some t
  | _ => none

/-- models.py `Tag.get_tagged_batches`: the batches joined to the tag through
`TagAssignment` rows (as primary keys — Django model equality is pk equality). -/
def get_tagged_batches (db : Db) (t : Tag) : List Nat :=
  (db.assignments.filter (fun a => decide (a.tag_id = t.tid))).map
    (fun a => a.batch_id)

/-- The trailing-letter trim of models.py `Category.get_category_via_name`
(line 78): drop the last character when it is the lowercase letter s. -/
def category_trim (s : String) : String :=
  match s.data.getLast? with
  | some c => if c = 's' then String.mk s.data.dropLast else s
  | none => s

/-- The trailing-letter trim of models.py `Unit.has_units_of_name` (line 162):
drop the last character when its Python `lower()` is the letter s. -/
def unit_trim (s : String) : String :=
  match s.data.getLast? with
  | some c => if c.toLower = 's' then String.mk s.data.dropLast else s
  | none => s

/-- models.py `Category.get_category_via_name`: on an empty token the `[-1]`
index raises and the `except` yields `None`; otherwise trim a trailing s and
run `Category.objects.get(name__icontains=...)`, which yields the row only
when exactly one row contains the token. -/
def get_category_via_name (db : Db) (category_name : String) : Option Category :=
  if category_name.data = [] then none
  else
    let n := category_trim category_name
    match db.categories.filter (fun c => icontains c.name n) with
    | [c] => some c
    | _ => none

/-- models.py `Unit.has_units_of_name`: on an empty token the `[-1]` index
raises and the `except` yields `False`; otherwise trim a trailing s or S and
test whether any unit name contains the token. -/
def has_units_of_name (db : Db) (unit_name : String) : Bool :=
  if unit_name.data = [] then false
  else
    let n := unit_trim unit_name
    !(db.units.filter (fun u => icontains u.name n)).isEmpty

/-- models.py `Unit.get_batches_with_unit_name`: batches whose unit name
contains the (untrimmed!) token. -/
def get_batches_with_unit_name (db : Db) (unit_name : String) : List Batch :=
  if unit_name = "" then []
  else
    db.batches.filter (fun b =>
      match lookupUnit db b.unit_id with
      | some u => icontains u.name unit_name
      | none => false)

/-- The fixed closed set of unit types (models.py `Unit.UnitType`). -/
def UnitType_choices : List String :=
  ["Horde", "Infantry", "Character", "Epic Character", "Vehicle", "Monster",
   "Titan", "Display"]

/-- models.py `Unit.has_unit_type_of_name`: case-insensitive exact membership
in the closed set of 8 unit types. -/
def has_unit_type_of_name (type_name : String) : Bool :=
  (UnitType_choices.map strLower).contains (strLower type_name)

/-- models.py `Unit.get_batches_of_unit_type`:
`Batch.objects.filter(unit_id__utype=unit_type)` (exact match). -/
def get_batches_of_unit_type (db : Db) (unit_type : String) : List Batch :=
  db.batches.filter (fun b =>
    match lookupUnit db b.unit_id with
    | some u => decide (u.utype = unit_type)
    | none => false)

/-- models.py `Kit.get_kit_via_name`: `None` on the empty token, otherwise
`Kit.objects.get(name__icontains=...)` — the row only when exactly one row
contains the token. -/
def get_kit_via_name (db : Db) (kit_name : String) : Option Kit :=
  if kit_name = "" then none
  else
    match db.kits.filter (fun k => icontains k.name kit_name) with
    | [k] => some k
    | _ => none

/-- models.py `Kit.get_batches_of_kit`. -/
def get_batches_of_kit (db : Db) (k : Kit) : List Batch :=
  db.batches.filter (fun b => decide (b.kit_id = k.kid))

/-- The ordered build-stage choices of models.py `Batch.Stage`. -/
def stage_choices : List (Nat × String) :=
  [(0, "Unopened"), (1, "Building"), (2, "Magnetizing"), (3, "Priming"),
   (4, "Painting"), (5, "Basing"), (6, "Varnishing"), (7, "Repairing"),
   (8, "Completed")]

/-- models.py `Batch.get_stage_via_name`: reject tokens of length at most 3,
capitalize, and return the ordinal of the first stage whose display string
starts with the token. -/
def get_stage_via_name (stage_name : String) : Option Nat :=
  if stage_name.length ≤ 3 then none
  else
    let cap := pyCapitalize stage_name
    (stage_choices.find? (fun pair => cap.data.isPrefixOf pair.2.data)).map
      (fun pair => pair.1)

/-- models.py `Batch.get_batches_of_stage`. -/
def get_batches_of_stage (db : Db) (stage_type : Nat) : List Batch :=
  db.batches.filter (fun b => decide (b.stage = stage_type))

/-! ## Token resolver and query combinator (searches.py `wide_db_search`)

The `terms` cache of `wide_db_search` is a heterogeneous Python list: the tag,
unit-type, unit-name and kit branches append strings, the category branch
appends a `Category` object (compared by primary key) and the stage branch
appends an `int`.  Values of different branches therefore never compare equal
across kinds, which the inductive `Term` reproduces. -/

inductive Term where
  | str : String → Term
  | cat : Nat → Term
  | stg : Nat → Term
deriving DecidableEq

/-- The last three branches of the classifier chain of `wide_db_search`
(unit type, unit name, kit), reached when tag, category and stage all failed. -/
def resolveRest (db : Db) (tok : String) : Option (Term × Finset Nat) :=
  if has_unit_type_of_name tok then
    some (Term.str tok, ((get_batches_of_unit_type db tok).map (fun b => b.bid)).toFinset)
  else if has_units_of_name db tok then
    some (Term.str tok, ((get_batches_with_unit_name db tok).map (fun b => b.bid)).toFinset)
  else
    match get_kit_via_name db tok with
    | some kit => some (Term.str kit.name, ((get_batches_of_kit db kit).map (fun b => b.bid)).toFinset)
    | none => none

/-- The classifier chain of `wide_db_search` for one token (searches.py lines
63-97): try Tag, Category, BuildStage, UnitType, UnitName, Kit in order and
stop at the first *truthy* hit.  The stage branch is guarded by the Python
truthiness of the walrus assignment `stage := get_stage_via_name(...)`, so a
matched stage with ordinal 0 (Unopened) is falsy and the chain falls through
to the remaining classifiers. -/
def resolveToken (db : Db) (tok : String) : Option (Term × Finset Nat) :=
  match get_tag_via_name db tok with
  | some tag => some (Term.str tag.name, (get_tagged_batches db tag).toFinset)
  | none =>
    match get_category_via_name db tok with
    | some category =>
        some (Term.cat category.cid,
              ((get_category_batches db category).map (fun b => b.bid)).toFinset)
    | none =>
      match get_stage_via_name tok with
      | some stage =>
          if stage = 0 then resolveRest db tok
          else some (Term.stg stage,
                     ((get_batches_of_stage db stage).map (fun b => b.bid)).toFinset)
      | none => resolveRest db tok

/-- The running state of `wide_db_search`: the result set and the cached terms. -/
structure SearchState where
  output_set : Finset Nat
  terms : List Term

/-- One iteration of the loop of `wide_db_search`: skip the token when no
classifier hit, skip it when its canonical term was already cached, otherwise
cache the term and then skip empty subsearches, seed an empty running set, or
intersect a non-empty one. -/
def processToken (db : Db) (st : SearchState) (tok : String) : SearchState :=
  match resolveToken db tok with
  | none => st
  | some (term, subsearch) =>
      if term ∈ st.terms then st
      else
        let terms' := st.terms ++ [term]
        if subsearch = ∅ then { output_set := st.output_set, terms := terms' }
        else if st.output_set = ∅ then { output_set := subsearch, terms := terms' }
        else { output_set := st.output_set ∩ subsearch, terms := terms' }

/-- searches.py `wide_db_search`: fold the per-token step over the token list
starting from an empty set plus empty term cache, and return both. -/
def wide_db_search (db : Db) (search_terms : List String) : Finset Nat × List Term :=
  let st := search_terms.foldl (processToken db) ⟨∅, []⟩
  (st.output_set, st.terms)

/-- All the per-token result sets of `rs` contain the batch `b`. -/
def allIn (b : Nat) (rs : List (Term × Finset Nat)) : Prop := ∀ p ∈ rs, b ∈ p.2

instance (b : Nat) (rs : List (Term × Finset Nat)) : Decidable (allIn b rs) :=
  inferInstanceAs (Decidable (∀ p ∈ rs, b ∈ p.2))

/-! ## Concrete database snapshots used as test inputs -/

/-- Three tags whose batch sets are {1}, {2}, {1}: a query whose intersection
empties out mid-fold and then re-seeds. -/
def db1 : Db :=
  { tags := [⟨0, "alpha"⟩, ⟨1, "beta"⟩, ⟨2, "gamma"⟩]
    categories := [⟨30, "stuff", none⟩]
    units := [⟨10, "mini", 30, 5, "Infantry"⟩]
    kits := [⟨20, "box"⟩]
    batches := [⟨1, 20, 10, 3, 1⟩, ⟨2, 20, 10, 5, 1⟩]
    assignments := [⟨0, 1⟩, ⟨1, 2⟩, ⟨2, 1⟩] }

/-- One tag with no assigned batches. -/
def db2 : Db :=
  { tags := [⟨0, "lonely"⟩], categories := [], units := [], kits := []
    batches := [], assignments := [] }

/-- One batch sitting at stage 0 (Unopened); nothing else matches the token
"unopened". -/
def db3 : Db :=
  { tags := [], categories := [⟨30, "stuff", none⟩]
    units := [⟨10, "mini", 30, 5, "Infantry"⟩], kits := [⟨20, "box"⟩]
    batches := [⟨1, 20, 10, 3, 0⟩], assignments := [] }

/-- A tag named "Elite" (capital E) with one assigned batch. -/
def db4 : Db :=
  { tags := [⟨0, "Elite"⟩], categories := [], units := [], kits := []
    batches := [], assignments := [⟨0, 7⟩] }

/-- A tag named "elite" with one assigned batch. -/
def db4w : Db :=
  { tags := [⟨0, "elite"⟩], categories := [], units := [], kits := []
    batches := [], assignments := [⟨0, 7⟩] }

/-- Two categories whose names both contain "necron". -/
def db5 : Db :=
  { tags := [], categories := [⟨0, "Necrons", none⟩, ⟨1, "Necron Lords", none⟩]
    units := [], kits := [], batches := [], assignments := [] }

/-- Exactly one category containing "necron", carrying one unit and one batch. -/
def db5w : Db :=
  { tags := [], categories := [⟨0, "Necrons", none⟩]
    units := [⟨10, "warrior", 0, 5, "Infantry"⟩], kits := [⟨20, "box"⟩]
    batches := [⟨1, 20, 10, 3, 4⟩], assignments := [] }

/-- A two-node acyclic category chain. -/
def db6a : Db :=
  { tags := [], categories := [⟨0, "top", none⟩, ⟨1, "child", some 0⟩]
    units := [], kits := [], batches := [], assignments := [] }

/-- A two-node category cycle. -/
def db6b : Db :=
  { tags := [], categories := [⟨0, "a", some 1⟩, ⟨1, "b", some 0⟩]
    units := [], kits := [], batches := [], assignments := [] }

/-- A root with one child and one unrelated category, each with a unit and a
batch. -/
def db7 : Db :=
  { tags := []
    categories := [⟨0, "top", none⟩, ⟨1, "mid", some 0⟩, ⟨2, "other", none⟩]
    units := [⟨10, "u1", 0, 1, "Infantry"⟩, ⟨11, "u2", 1, 1, "Horde"⟩,
              ⟨12, "u3", 2, 1, "Titan"⟩]
    kits := [⟨20, "box"⟩]
    batches := [⟨1, 20, 10, 1, 0⟩, ⟨2, 20, 11, 1, 0⟩, ⟨3, 20, 12, 1, 0⟩]
    assignments := [] }

/-- A self-referencing (unsafe) category with a unit and a batch under it. -/
def db7b : Db :=
  { tags := [], categories := [⟨0, "loop", some 0⟩]
    units := [⟨10, "u1", 0, 1, "Infantry"⟩], kits := [⟨20, "box"⟩]
    batches := [⟨1, 20, 10, 1, 0⟩], assignments := [] }

/-- The empty snapshot. -/
def db0 : Db := { tags := [], categories := [], units := [], kits := []
                  batches := [], assignments := [] }

/-- The 1,100-leading-spaces query string of the specification's tokenizer
examples. -/
def bigSpaces : String := String.mk (List.replicate 1100 ' ' ++ "necron".data)

/-! ## Theorems -/

/-! ### Input sanitizer (claim C9) -/

set_option maxRecDepth 40000 in
/-- Claim C9 (confirmed): `parse_search_string` truncates its input to 128
characters before any stripping, then strips the punctuation class from both
ends, replaces space and angle brackets with commas and underscore with a
space, splits on commas, strips each piece again and drops empty pieces; on
the specification's examples it yields `["space marine", "epic character"]`
for `"space_marine epic_character"`, `[]` for `""`, and `[]` for 1,100 spaces
followed by `"necron"` (the truncation cuts the word off). -/
theorem C9_parse_search_string :
    parse_search_string "space_marine epic_character" =
      ["space marine", "epic character"] ∧
    parse_search_string "" = [] ∧
    bigSpaces.length = 1106 ∧
    parse_search_string bigSpaces = [] := by
  refine ⟨by decide, by decide, by decide, by decide⟩

/-! ### The query combinator on misses and on the term cache (claims C10, C2) -/

theorem processToken_of_none (db : Db) (st : SearchState) (tok : String)
    (h : resolveToken db tok = none) : processToken db st tok = st := by
  simp [processToken, h]

theorem foldl_of_none (db : Db) (toks : List String) (st : SearchState)
    (h : ∀ t ∈ toks, resolveToken db t = none) :
    toks.foldl (processToken db) st = st := by
  induction toks generalizing st with
  | nil => rfl
  | cons t ts ih =>
      rw [List.foldl_cons, processToken_of_none db st t (h t (by simp))]
      exact ih st (fun x hx => h x (by simp [hx]))

/-- Claim C10 (confirmed): a token list in which no token matches any of the
six classifiers produces the empty result set and the empty matched-terms
list; no "return everything" fallback happens inside `wide_db_search`. -/
theorem C10_all_miss (db : Db) (toks : List String)
    (h : ∀ tok ∈ toks,
      get_tag_via_name db tok = none ∧
      get_category_via_name db tok = none ∧
      get_stage_via_name tok = none ∧
      has_unit_type_of_name tok = false ∧
      has_units_of_name db tok = false ∧
      get_kit_via_name db tok = none) :
    wide_db_search db toks = (∅, []) := by
  have hres : ∀ tok ∈ toks, resolveToken db tok = none := by
    intro tok htok
    obtain ⟨h1, h2, h3, h4, h5, h6⟩ := h tok htok
    simp [resolveToken, resolveRest, h1, h2, h3, h4, h5, h6]
  unfold wide_db_search
  rw [foldl_of_none db toks _ hres]

/-- Witness for C10 at a concrete snapshot and token list. -/
theorem C10_witness : wide_db_search db0 ["xyz"] = (∅, []) :=
  C10_all_miss db0 ["xyz"] (by decide)

theorem terms_invariant (db : Db) (toks : List String) (st : SearchState)
    (hnd : st.terms.Nodup) :
    (toks.foldl (processToken db) st).terms.Nodup ∧
    ∀ term ∈ (toks.foldl (processToken db) st).terms,
      term ∈ st.terms ∨ ∃ tok ∈ toks, ∃ S, resolveToken db tok = some (term, S) := by
  induction toks generalizing st with
  | nil => exact ⟨hnd, fun term ht => Or.inl ht⟩
  | cons t ts ih =>
      rw [List.foldl_cons]
      have step : ∀ st' : SearchState,
          st'.terms.Nodup →
          (st'.terms = st.terms ∨
            ∃ S term, resolveToken db t = some (term, S) ∧
              st'.terms = st.terms ++ [term]) →
          (ts.foldl (processToken db) st').terms.Nodup ∧
          ∀ term ∈ (ts.foldl (processToken db) st').terms,
            term ∈ st.terms ∨
            ∃ tok ∈ t :: ts, ∃ S, resolveToken db tok = some (term, S) := by
        intro st' hnd' hcases
        obtain ⟨hnd2, hmem2⟩ := ih st' hnd'
        refine ⟨hnd2, fun term ht => ?_⟩
        rcases hmem2 term ht with hin | ⟨tok, htok, S, hS⟩
        · rcases hcases with he | ⟨S, tm, hres, he⟩
          · exact Or.inl (he ▸ hin)
          · rw [he, List.mem_append] at hin
            rcases hin with hin | hin
            · exact Or.inl hin
            · simp only [List.mem_singleton] at hin
              exact Or.inr ⟨t, by simp, S, hin ▸ hres⟩
        · exact Or.inr ⟨tok, by simp [htok], S, hS⟩
      cases hres : resolveToken db t with
      | none =>
          rw [processToken_of_none db st t hres]
          exact step st hnd (Or.inl rfl)
      | some p =>
          obtain ⟨tm, S⟩ := p
          by_cases hdup : tm ∈ st.terms
          · have : processToken db st t = st := by
              simp [processToken, hres, hdup]
            rw [this]
            exact step st hnd (Or.inl rfl)
          · have hterms' : (processToken db st t).terms = st.terms ++ [tm] := by
              simp only [processToken, hres, if_neg hdup]
              by_cases h1 : S = ∅ <;> by_cases h2 : st.output_set = ∅ <;>
                simp [h1, h2]
            have hnd' : (processToken db st t).terms.Nodup := by
              rw [hterms']
              simp [List.nodup_append, hnd, hdup]
            exact step _ hnd' (Or.inr ⟨S, tm, hres, hterms'⟩)

/-- Claim C2 (corrected): every canonical term in the matched-terms list of
`wide_db_search` is one some token resolved to through the classifier chain,
and the list has no duplicates; but a term whose classifier result set is
empty is still recorded (the append happens before the emptiness test), so
"non-empty result set" had to be weakened to "resolved by a classifier". -/
theorem C2_terms_from_classifiers (db : Db) (toks : List String) :
    (wide_db_search db toks).2.Nodup ∧
    ∀ term ∈ (wide_db_search db toks).2,
      ∃ tok ∈ toks, ∃ S, resolveToken db tok = some (term, S) := by
  obtain ⟨h1, h2⟩ := terms_invariant db toks ⟨∅, []⟩ List.nodup_nil
  refine ⟨h1, fun term ht => ?_⟩
  rcases h2 term ht with hin | h
  · cases hin
  · exact h

/-- Counterexample for C2 as stated: the tag "lonely" has no assigned batches,
so its classifier result set is empty, yet it appears in the matched-terms
list. -/
theorem C2_counterexample :
    resolveToken db2 "lonely" = some (Term.str "lonely", ∅) ∧
    wide_db_search db2 ["lonely"] = (∅, [Term.str "lonely"]) := by
  refine ⟨by decide, by decide⟩

/-- Witness for C2 at a concrete snapshot and token list. -/
theorem C2_witness :
    (wide_db_search db2 ["lonely"]).2.Nodup ∧
    ∃ tok ∈ ["lonely"], ∃ S, resolveToken db2 tok = some (Term.str "lonely", S) :=
  ⟨(C2_terms_from_classifiers db2 ["lonely"]).1,
   (C2_terms_from_classifiers db2 ["lonely"]).2 (Term.str "lonely") (by decide)⟩

/-! ### Parent-chain lemmas (claims C6, C7) -/

theorem ancestor_add (db : Db) (j : Nat) (a b : Nat) :
    ancestor db j (a + b) =
      (ancestor db j a).bind (fun x => ancestor db x b) := by
  induction b with
  | zero => cases h : ancestor db j a <;> simp [ancestor, h]
  | succ n ih =>
      show (ancestor db j (a + n)).bind (parentOf db) = _
      rw [ih]
      cases h : ancestor db j a with
      | none => rfl
      | some x => simp [ancestor]

theorem ancestor_none_mono (db : Db) (j : Nat) {a b : Nat} (hab : a ≤ b)
    (h : ancestor db j a = none) : ancestor db j b = none := by
  obtain ⟨c, rfl⟩ := Nat.exists_eq_add_of_le hab
  rw [ancestor_add, h]; rfl

theorem ancestor_isSome_of_le (db : Db) (j : Nat) {a b : Nat} (hab : a ≤ b)
    (h : (ancestor db j b).isSome) : (ancestor db j a).isSome := by
  by_contra hc
  rw [Option.not_isSome_iff_eq_none] at hc
  rw [ancestor_none_mono db j hab hc] at h
  simp at h

theorem mem_visList (db : Db) (j : Nat) (t : Nat) (y : Nat) :
    y ∈ visList db j t ↔ ∃ s < t, ancestor db j s = some y := by
  simp [visList, List.mem_filterMap, List.mem_range]

theorem visList_one (db : Db) (j : Nat) : visList db j 1 = [j] := by
  simp [visList, List.range_succ, ancestor]

theorem visList_succ (db : Db) (j : Nat) {t x : Nat}
    (h : ancestor db j t = some x) :
    visList db j (t + 1) = visList db j t ++ [x] := by
  simp [visList, List.range_succ, List.filterMap_append, h]

theorem visList_length (db : Db) (j : Nat) (t : Nat)
    (h : ∀ s, s < t → (ancestor db j s).isSome) :
    (visList db j t).length = t := by
  induction t with
  | zero => rfl
  | succ n ih =>
      obtain ⟨x, hx⟩ := Option.isSome_iff_exists.mp (h n (by omega))
      rw [visList_succ db j hx, List.length_append,
          ih (fun s hs => h s (by omega))]
      rfl

theorem visList_nodup (db : Db) (j : Nat) (t : Nat)
    (hsome : ∀ s, s < t → (ancestor db j s).isSome)
    (hdist : ∀ a b, a < b → b < t → ancestor db j a ≠ ancestor db j b) :
    (visList db j t).Nodup := by
  induction t with
  | zero => exact List.nodup_nil
  | succ n ih =>
      obtain ⟨x, hx⟩ := Option.isSome_iff_exists.mp (hsome n (by omega))
      rw [visList_succ db j hx]
      have hnotmem : x ∉ visList db j n := by
        intro hmem
        obtain ⟨s, hsn, hs⟩ := (mem_visList db j n x).mp hmem
        exact hdist s n hsn (by omega) (hs.trans hx.symm)
      have hn := ih (fun s hs => hsome s (by omega))
        (fun a b hab hb => hdist a b hab (by omega))
      simp [List.nodup_append, hn, hnotmem]

theorem visList_subset_cids (db : Db) (j : Nat) (t : Nat)
    (h : ∀ s, s < t → (ancestor db j (s + 1)).isSome) :
    ∀ y ∈ visList db j t, y ∈ db.categories.map (fun c => c.cid) := by
  intro y hy
  obtain ⟨s, hst, hs⟩ := (mem_visList db j t y).mp hy
  have hp : (parentOf db y).isSome := by
    have h1 := h s hst
    rw [show ancestor db j (s + 1) = (ancestor db j s).bind (parentOf db)
          from rfl, hs] at h1
    simpa using h1
  rw [parentOf] at hp
  cases hf : db.categories.find? (fun c => decide (c.cid = y)) with
  | none => rw [hf] at hp; simp at hp
  | some c =>
      have hcy : c.cid = y := by
        have := List.find?_some hf
        simpa using this
      have hmem := List.mem_of_find?_eq_some hf
      rw [List.mem_map]
      exact ⟨c, hmem, hcy⟩

theorem nodup_subset_length {l L : List Nat} (hnd : l.Nodup)
    (hsub : ∀ x ∈ l, x ∈ L) : l.length ≤ L.length := by
  have h1 : l.toFinset.card = l.length := List.toFinset_card_of_nodup hnd
  have h2 : l.toFinset ⊆ L.toFinset := by
    intro x hx
    rw [List.mem_toFinset] at hx ⊢
    exact hsub x hx
  calc l.length = l.toFinset.card := h1.symm
    _ ≤ L.toFinset.card := Finset.card_le_card h2
    _ ≤ L.length := L.toFinset_card_le

theorem safeLoop_true (db : Db) (j : Nat) (k : Nat)
    (hk : ancestor db j k = none)
    (hsome : ∀ s, s < k → (ancestor db j s).isSome)
    (hdist : ∀ a b, a < b → b < k → ancestor db j a ≠ ancestor db j b) :
    ∀ fuel t, 1 ≤ t → t ≤ k → k - t < fuel →
      safeLoop db (visList db j t) (ancestor db j t) fuel = true := by
  intro fuel
  induction fuel with
  | zero => intro t _ _ h; omega
  | succ f ih =>
      intro t ht1 htk hfuel
      by_cases hteq : t = k
      · subst hteq; rw [hk]; rfl
      · have htlt : t < k := lt_of_le_of_ne htk hteq
        obtain ⟨jt, hjt⟩ := Option.isSome_iff_exists.mp (hsome t htlt)
        rw [hjt]
        have hnotmem : jt ∉ visList db j t := by
          intro hmem
          obtain ⟨s, hst, hs⟩ := (mem_visList db j t jt).mp hmem
          exact hdist s t hst htlt (hs.trans hjt.symm)
        have hcount : ¬ 1 < (visList db j t ++ [jt]).count jt := by
          have h0 : (visList db j t).count jt = 0 :=
            List.count_eq_zero.mpr hnotmem
          have h1 : (visList db j t ++ [jt]).count jt
              = (visList db j t).count jt + [jt].count jt := List.count_append jt _ _
          simp [h1, h0]
        rw [safeLoop, if_neg hcount]
        have hparent : parentOf db jt = ancestor db j (t + 1) := by
          rw [show ancestor db j (t + 1) = (ancestor db j t).bind (parentOf db)
                from rfl, hjt]
          rfl
        rw [hparent, ← visList_succ db j hjt]
        exact ih (t + 1) (by omega) (by omega) (by omega)

theorem safeLoop_false (db : Db) (j : Nat) (T : Nat)
    (hsome : ∀ s, s ≤ T → (ancestor db j s).isSome)
    (hrep : ∃ r, r < T ∧ ancestor db j r = ancestor db j T)
    (hdist : ∀ a b, a < b → b < T → ancestor db j a ≠ ancestor db j b) :
    ∀ fuel t, 1 ≤ t → t ≤ T → T - t < fuel →
      safeLoop db (visList db j t) (ancestor db j t) fuel = false := by
  intro fuel
  induction fuel with
  | zero => intro t _ _ h; omega
  | succ f ih =>
      intro t ht1 htT hfuel
      obtain ⟨jt, hjt⟩ := Option.isSome_iff_exists.mp (hsome t htT)
      rw [hjt]
      by_cases hteq : t = T
      · subst hteq
        obtain ⟨r, hrT, hr⟩ := hrep
        have hmem : jt ∈ visList db j t := by
          rw [mem_visList]
          exact ⟨r, hrT, hr.trans hjt⟩
        have hcount : 1 < (visList db j t ++ [jt]).count jt := by
          have h0 : 0 < (visList db j t).count jt :=
            List.count_pos_iff.mpr hmem
          have h1 : (visList db j t ++ [jt]).count jt
              = (visList db j t).count jt + [jt].count jt := List.count_append jt _ _
          have h2 : [jt].count jt = 1 := by simp
          omega
        rw [safeLoop, if_pos hcount]
      · have htlt : t < T := lt_of_le_of_ne htT hteq
        have hnotmem : jt ∉ visList db j t := by
          intro hmem
          obtain ⟨s, hst, hs⟩ := (mem_visList db j t jt).mp hmem
          exact hdist s t hst htlt (hs.trans hjt.symm)
        have hcount : ¬ 1 < (visList db j t ++ [jt]).count jt := by
          have h0 : (visList db j t).count jt = 0 :=
            List.count_eq_zero.mpr hnotmem
          have h1 : (visList db j t ++ [jt]).count jt
              = (visList db j t).count jt + [jt].count jt := List.count_append jt _ _
          simp [h1, h0]
        rw [safeLoop, if_neg hcount]
        have hparent : parentOf db jt = ancestor db j (t + 1) := by
          rw [show ancestor db j (t + 1) = (ancestor db j t).bind (parentOf db)
                from rfl, hjt]
          rfl
        rw [hparent, ← visList_succ db j hjt]
        exact ih (t + 1) (by omega) (by omega) (by omega)

theorem finite_or_cycle (db : Db) (j : Nat) :
    FiniteChain db j ∨ HitsCycle db j := by
  rw [or_iff_not_imp_left]
  intro h
  rw [FiniteChain] at h
  push_neg at h
  have hsome : ∀ k, (ancestor db j k).isSome := fun k =>
    Option.ne_none_iff_isSome.mp (h k)
  by_contra hcyc
  rw [HitsCycle] at hcyc
  push_neg at hcyc
  have hdist : ∀ a b, a < b → ancestor db j a ≠ ancestor db j b := by
    intro a b hab heq
    obtain ⟨x, hx⟩ := Option.isSome_iff_exists.mp (hsome a)
    exact hcyc x a b hab hx (heq ▸ hx)
  set n := db.categories.length with hn
  have h1 : (visList db j (n + 1)).Nodup :=
    visList_nodup db j (n + 1) (fun s _ => hsome s)
      (fun a b hab _ => hdist a b hab)
  have h2 : (visList db j (n + 1)).length = n + 1 :=
    visList_length db j (n + 1) (fun s _ => hsome s)
  have h3 := visList_subset_cids db j (n + 1) (fun s _ => hsome (s + 1))
  have h4 := nodup_subset_length h1 h3
  rw [h2, List.length_map] at h4
  omega

theorem find?_eq_of_mem_nodup {l : List Category} {c : Category}
    (hmem : c ∈ l) (hnd : (l.map (fun k => k.cid)).Nodup) :
    l.find? (fun k => decide (k.cid = c.cid)) = some c := by
  induction l with
  | nil => cases hmem
  | cons a t ih =>
      rcases List.mem_cons.mp hmem with rfl | hmem'
      · simp [List.find?]
      · have hnd' := hnd
        rw [List.map_cons, List.nodup_cons] at hnd'
        have hne : ¬ (a.cid = c.cid) := by
          intro h
          exact hnd'.1 (h ▸ List.mem_map_of_mem (fun k => k.cid) hmem')
        rw [List.find?_cons_of_neg _ (by simpa using hne)]
        exact ih hmem' hnd'.2

theorem parentOf_self (db : Db) {self : Category}
    (hmem : self ∈ db.categories)
    (hnd : (db.categories.map (fun c => c.cid)).Nodup) :
    parentOf db self.cid = self.parent := by
  rw [parentOf, find?_eq_of_mem_nodup hmem hnd]

/-- Claim C6 (confirmed): on a finite arena with distinct category ids,
`is_category_safe` returns true at every node whose parent chain is finite
and acyclic (ends at a parentless root), returns false at every node lying on
or transitively reaching a parent-chain cycle, and its loop terminates: any
fuel of at least `number of categories + 1` rounds computes the same verdict. -/
theorem C6_is_category_safe (db : Db) (self : Category)
    (hmem : self ∈ db.categories)
    (hnd : (db.categories.map (fun c => c.cid)).Nodup) :
    (FiniteChain db self.cid → is_category_safe db self = true) ∧
    (HitsCycle db self.cid → is_category_safe db self = false) ∧
    (∀ extra, safeLoop db [self.cid] self.parent
        (db.categories.length + 1 + extra) = is_category_safe db self) := by
  have hstart : ∀ fuel, safeLoop db [self.cid] self.parent fuel
      = safeLoop db (visList db self.cid 1) (ancestor db self.cid 1) fuel := by
    intro fuel
    have h1 : ancestor db self.cid 1 = self.parent := by
      show (some self.cid).bind (parentOf db) = self.parent
      rw [Option.some_bind]
      exact parentOf_self db hmem hnd
    rw [visList_one, h1]
  have htrue : FiniteChain db self.cid →
      ∀ fuel, db.categories.length + 1 ≤ fuel →
        safeLoop db [self.cid] self.parent fuel = true := by
    intro hfin fuel hfuel
    have hfin' : ∃ k, ancestor db self.cid k = none := hfin
    have hk0 : ancestor db self.cid (Nat.find hfin') = none := Nat.find_spec hfin'
    set k0 := Nat.find hfin' with hk0def
    have hsome : ∀ s, s < k0 → (ancestor db self.cid s).isSome := by
      intro s hs
      exact Option.ne_none_iff_isSome.mp (Nat.find_min hfin' hs)
    have hk0pos : 1 ≤ k0 := by
      rcases Nat.eq_zero_or_pos k0 with h | h
      · rw [h] at hk0; exact absurd hk0 (by simp [ancestor])
      · exact h
    have hdist : ∀ a b, a < b → b < k0 →
        ancestor db self.cid a ≠ ancestor db self.cid b := by
      intro a b hab hbk heq
      have h1 : ancestor db self.cid (a + (k0 - b)) =
          ancestor db self.cid (b + (k0 - b)) := by
        rw [ancestor_add, ancestor_add, heq]
      rw [show b + (k0 - b) = k0 by omega, hk0] at h1
      have h2 := hsome (a + (k0 - b)) (by omega)
      rw [h1] at h2
      simp at h2
    have hbound : k0 ≤ db.categories.length + 1 := by
      by_contra hcon
      push_neg at hcon
      have h1 : (visList db self.cid (k0 - 1)).Nodup :=
        visList_nodup _ _ _ (fun s hs => hsome s (by omega))
          (fun a b hab hb => hdist a b hab (by omega))
      have h2 : (visList db self.cid (k0 - 1)).length = k0 - 1 :=
        visList_length _ _ _ (fun s hs => hsome s (by omega))
      have h3 := visList_subset_cids db self.cid (k0 - 1)
        (fun s hs => hsome (s + 1) (by omega))
      have h4 := nodup_subset_length h1 h3
      rw [h2, List.length_map] at h4
      omega
    rw [hstart]
    exact safeLoop_true db self.cid k0 hk0 hsome hdist fuel 1 le_rfl hk0pos
      (by omega)
  have hfalse : HitsCycle db self.cid →
      ∀ fuel, db.categories.length + 1 ≤ fuel →
        safeLoop db [self.cid] self.parent fuel = false := by
    intro hcyc fuel hfuel
    obtain ⟨x, a, b, hab, ha, hb⟩ := hcyc
    have hx_period : ∀ c : Nat,
        ancestor db self.cid (a + c * (b - a)) = some x := by
      intro c
      induction c with
      | zero => simpa using ha
      | succ m ih =>
          have h1 : a + (m + 1) * (b - a) = (a + m * (b - a)) + (b - a) := by
            rw [Nat.succ_mul]; omega
          rw [h1, ancestor_add, ih, Option.some_bind]
          have h2 : ancestor db self.cid (a + (b - a)) = some x := by
            rw [show a + (b - a) = b by omega]; exact hb
          rw [ancestor_add, ha, Option.some_bind] at h2
          exact h2
    have hsome : ∀ s, (ancestor db self.cid s).isSome := by
      intro s
      by_contra hc
      rw [Option.not_isSome_iff_eq_none] at hc
      have h1 := hx_period s
      have h2 : s ≤ a + s * (b - a) := by
        have h3 : s * 1 ≤ s * (b - a) := Nat.mul_le_mul_left s (by omega)
        simp only [Nat.mul_one] at h3
        omega
      rw [ancestor_none_mono db self.cid h2 hc] at h1
      simp at h1
    have hex : ∃ t : Nat, ∃ s, s < t ∧
        ancestor db self.cid s = ancestor db self.cid t :=
      ⟨b, a, hab, by rw [ha, hb]⟩
    obtain ⟨r, hrT, hr⟩ := Nat.find_spec hex
    set T := Nat.find hex with hTdef
    have hT1 : 1 ≤ T := by omega
    have hdist : ∀ a' b', a' < b' → b' < T →
        ancestor db self.cid a' ≠ ancestor db self.cid b' := by
      intro a' b' hab' hb' heq
      exact absurd ⟨a', hab', heq⟩ (Nat.find_min hex hb')
    have hbound : T ≤ db.categories.length := by
      by_contra hcon
      push_neg at hcon
      have h1 : (visList db self.cid T).Nodup :=
        visList_nodup _ _ _ (fun s _ => hsome s) hdist
      have h2 : (visList db self.cid T).length = T :=
        visList_length _ _ _ (fun s _ => hsome s)
      have h3 := visList_subset_cids db self.cid T (fun s _ => hsome (s + 1))
      have h4 := nodup_subset_length h1 h3
      rw [h2, List.length_map] at h4
      omega
    rw [hstart]
    exact safeLoop_false db self.cid T (fun s _ => hsome s) ⟨r, hrT, hr⟩ hdist
      fuel 1 le_rfl hT1 (by omega)
  refine ⟨fun h => ?_, fun h => ?_, fun extra => ?_⟩
  · rw [is_category_safe]; exact htrue h _ le_rfl
  · rw [is_category_safe]; exact hfalse h _ le_rfl
  · rw [is_category_safe]
    rcases finite_or_cycle db self.cid with h | h
    · rw [htrue h _ (by omega), htrue h _ le_rfl]
    · rw [hfalse h _ (by omega), hfalse h _ le_rfl]

/-- Witness for C6: a two-node acyclic chain is reported safe; a two-node
cycle is reported unsafe. -/
theorem C6_witness :
    is_category_safe db6a ⟨1, "child", some 0⟩ = true ∧
    is_category_safe db6b ⟨0, "a", some 1⟩ = false :=
  ⟨(C6_is_category_safe db6a ⟨1, "child", some 0⟩ (by decide) (by decide)).1
      ⟨2, by decide⟩,
   (C6_is_category_safe db6b ⟨0, "a", some 1⟩ (by decide) (by decide)).2.1
      ⟨0, 0, 2, by decide, by decide, by decide⟩⟩

/-! ### Subtree collection (claim C7) -/

theorem no_repeat_of_finite (db : Db) {j : Nat} (hfin : FiniteChain db j) :
    ∀ a b, a < b → (ancestor db j b).isSome →
      ancestor db j a ≠ ancestor db j b := by
  intro a b hab hbsome heq
  have hfin' : ∃ k, ancestor db j k = none := hfin
  have hk0 : ancestor db j (Nat.find hfin') = none := Nat.find_spec hfin'
  set k0 := Nat.find hfin' with hk0def
  have hbk : b < k0 := by
    by_contra hcon
    push_neg at hcon
    rw [ancestor_none_mono db j hcon hk0] at hbsome
    simp at hbsome
  have h1 : ancestor db j (a + (k0 - b)) = ancestor db j (b + (k0 - b)) := by
    rw [ancestor_add, ancestor_add, heq]
  rw [show b + (k0 - b) = k0 by omega, hk0] at h1
  exact absurd h1 (Nat.find_min hfin' (by omega))

theorem Descendant.trans' (db : Db) {x y z : Nat}
    (h1 : Descendant db x y) (h2 : Descendant db y z) : Descendant db x z := by
  obtain ⟨k1, hk1⟩ := h1
  obtain ⟨k2, hk2⟩ := h2
  exact ⟨k1 + k2, by rw [ancestor_add, hk1, Option.some_bind, hk2]⟩

theorem FiniteChain_of_descendant (db : Db) {x r : Nat}
    (hdesc : Descendant db x r) (hfin : FiniteChain db r) :
    FiniteChain db x := by
  obtain ⟨k, hk⟩ := hdesc
  obtain ⟨m, hm⟩ := hfin
  exact ⟨k + m, by rw [ancestor_add, hk, Option.some_bind, hm]⟩

theorem mem_cids_of_parentOf_isSome (db : Db) {y : Nat}
    (h : (parentOf db y).isSome) : y ∈ db.categories.map (fun c => c.cid) := by
  rw [parentOf] at h
  cases hf : db.categories.find? (fun c => decide (c.cid = y)) with
  | none => rw [hf] at h; simp at h
  | some c =>
      have hcy : c.cid = y := by
        have := List.find?_some hf
        simpa using this
      exact List.mem_map.mpr ⟨c, List.mem_of_find?_eq_some hf, hcy⟩

theorem mem_cids_of_descendant (db : Db) {x r : Nat}
    (hdesc : Descendant db x r) (hr : r ∈ db.categories.map (fun c => c.cid)) :
    x ∈ db.categories.map (fun c => c.cid) := by
  obtain ⟨k, hk⟩ := hdesc
  cases k with
  | zero =>
      have : x = r := by simpa [ancestor] using hk
      exact this ▸ hr
  | succ m =>
      have hks : (ancestor db x (m + 1)).isSome := by rw [hk]; rfl
      have h1 : (ancestor db x 1).isSome :=
        ancestor_isSome_of_le db x (by omega) hks
      have h2 : ancestor db x 1 = parentOf db x := by
        show (some x).bind (parentOf db) = parentOf db x
        rw [Option.some_bind]
      rw [h2] at h1
      exact mem_cids_of_parentOf_isSome db h1

theorem descB_iff (db : Db) {x r : Nat}
    (hr : r ∈ db.categories.map (fun c => c.cid)) :
    descB db x r = true ↔ Descendant db x r := by
  constructor
  · intro h
    rw [descB, List.any_eq_true] at h
    obtain ⟨k, _, hk⟩ := h
    exact ⟨k, by simpa using hk⟩
  · intro hdesc
    have hdesc' : ∃ k, ancestor db x k = some r := hdesc
    have hk0 : ancestor db x (Nat.find hdesc') = some r := Nat.find_spec hdesc'
    set k0 := Nat.find hdesc' with hk0def
    have hsome : ∀ s, s ≤ k0 → (ancestor db x s).isSome := by
      intro s hs
      exact ancestor_isSome_of_le db x hs (by rw [hk0]; rfl)
    have hdist : ∀ a b, a < b → b ≤ k0 →
        ancestor db x a ≠ ancestor db x b := by
      intro a b hab hbk heq
      have h1 : ancestor db x (a + (k0 - b)) = ancestor db x (b + (k0 - b)) := by
        rw [ancestor_add, ancestor_add, heq]
      rw [show b + (k0 - b) = k0 by omega, hk0] at h1
      exact absurd h1 (Nat.find_min hdesc' (by omega))
    have hbound : k0 ≤ db.categories.length := by
      by_contra hcon
      push_neg at hcon
      have h1 : (visList db x (k0 + 1)).Nodup :=
        visList_nodup _ _ _ (fun s hs => hsome s (by omega))
          (fun a b hab hb => hdist a b hab (by omega))
      have h2 : (visList db x (k0 + 1)).length = k0 + 1 :=
        visList_length _ _ _ (fun s hs => hsome s (by omega))
      have h3 : ∀ y ∈ visList db x (k0 + 1),
          y ∈ db.categories.map (fun c => c.cid) := by
        intro y hy
        obtain ⟨s, hst, hs⟩ := (mem_visList db x (k0 + 1) y).mp hy
        have hsk : s ≤ k0 := by omega
        rcases lt_or_eq_of_le hsk with hlt | hEq
        · have h4 : (ancestor db x (s + 1)).isSome := hsome (s + 1) (by omega)
          rw [show ancestor db x (s + 1) = (ancestor db x s).bind (parentOf db)
                from rfl, hs] at h4
          simp only [Option.some_bind] at h4
          exact mem_cids_of_parentOf_isSome db h4
        · subst hEq
          have hyr : y = r := by rw [hs] at hk0; simpa using hk0
          exact hyr ▸ hr
      have h4 := nodup_subset_length h1 h3
      rw [h2, List.length_map] at h4
      omega
    rw [descB, List.any_eq_true]
    exact ⟨k0, List.mem_range.mpr (by omega), by simp [hk0]⟩

theorem mem_subtreeF (db : Db) {x r : Nat}
    (hr : r ∈ db.categories.map (fun c => c.cid)) :
    x ∈ subtreeF db r ↔
      x ∈ db.categories.map (fun c => c.cid) ∧ Descendant db x r := by
  rw [subtreeF, List.mem_toFinset, List.mem_filter, descB_iff db hr]

theorem self_mem_subtreeF (db : Db) {r : Nat}
    (hr : r ∈ db.categories.map (fun c => c.cid)) : r ∈ subtreeF db r :=
  (mem_subtreeF db hr).mpr ⟨hr, ⟨0, rfl⟩⟩

theorem mem_childrenOf (db : Db) {c : Category} {j : Nat} :
    c ∈ childrenOf db j ↔ c ∈ db.categories ∧ c.parent = some j := by
  rw [childrenOf, List.mem_filter]
  simp

theorem descendant_child (db : Db)
    (hnd : (db.categories.map (fun c => c.cid)).Nodup) {c : Category} {j : Nat}
    (hc : c ∈ childrenOf db j) : Descendant db c.cid j := by
  obtain ⟨hmem, hp⟩ := (mem_childrenOf db).mp hc
  refine ⟨1, ?_⟩
  show (some c.cid).bind (parentOf db) = some j
  rw [Option.some_bind, parentOf_self db hmem hnd, hp]

theorem subtree_child_subset (db : Db)
    (hnd : (db.categories.map (fun c => c.cid)).Nodup) {c : Category} {j : Nat}
    (hc : c ∈ childrenOf db j) (hj : j ∈ db.categories.map (fun c => c.cid)) :
    subtreeF db c.cid ⊆ subtreeF db j := by
  intro x hx
  have hcc : c.cid ∈ db.categories.map (fun c => c.cid) :=
    List.mem_map_of_mem _ ((mem_childrenOf db).mp hc).1
  obtain ⟨hxc, hxd⟩ := (mem_subtreeF db hcc).mp hx
  exact (mem_subtreeF db hj).mpr
    ⟨hxc, Descendant.trans' db hxd (descendant_child db hnd hc)⟩

theorem subtree_decomp (db : Db) {x j : Nat}
    (hj : j ∈ db.categories.map (fun c => c.cid)) (hx : x ∈ subtreeF db j) :
    x = j ∨ ∃ c ∈ childrenOf db j, x ∈ subtreeF db c.cid := by
  obtain ⟨hxc, k, hk⟩ := (mem_subtreeF db hj).mp hx
  cases k with
  | zero => left; simpa [ancestor] using hk
  | succ m =>
      have hks : (ancestor db x (m + 1)).isSome := by rw [hk]; rfl
      have hms : (ancestor db x m).isSome :=
        ancestor_isSome_of_le db x (by omega) hks
      obtain ⟨y, hy⟩ := Option.isSome_iff_exists.mp hms
      have hpy : parentOf db y = some j := by
        have h0 := hk
        rw [show ancestor db x (m + 1) = (ancestor db x m).bind (parentOf db)
              from rfl, hy, Option.some_bind] at h0
        exact h0
      rw [parentOf] at hpy
      cases hf : db.categories.find? (fun c => decide (c.cid = y)) with
      | none => rw [hf] at hpy; cases hpy
      | some cy =>
          rw [hf] at hpy
          have hcy : cy.cid = y := by simpa using List.find?_some hf
          have hcymem : cy ∈ db.categories := List.mem_of_find?_eq_some hf
          right
          refine ⟨cy, (mem_childrenOf db).mpr ⟨hcymem, hpy⟩, ?_⟩
          have hycids : cy.cid ∈ db.categories.map (fun c => c.cid) :=
            List.mem_map_of_mem _ hcymem
          refine (mem_subtreeF db hycids).mpr ⟨hxc, ⟨m, ?_⟩⟩
          rw [hcy]
          exact hy

theorem subtree_child_not_mem (db : Db)
    (hnd : (db.categories.map (fun c => c.cid)).Nodup) {c : Category} {j : Nat}
    (hc : c ∈ childrenOf db j) (hfinj : FiniteChain db j) :
    j ∉ subtreeF db c.cid := by
  intro hmem
  obtain ⟨hcmem, hp⟩ := (mem_childrenOf db).mp hc
  have hcc : c.cid ∈ db.categories.map (fun c => c.cid) :=
    List.mem_map_of_mem _ hcmem
  obtain ⟨-, m, hm⟩ := (mem_subtreeF db hcc).mp hmem
  have h1 : ancestor db j (m + 1) = some j := by
    rw [show ancestor db j (m + 1) = (ancestor db j m).bind (parentOf db)
          from rfl, hm, Option.some_bind, parentOf_self db hcmem hnd, hp]
  apply no_repeat_of_finite db hfinj 0 (m + 1) (by omega) (by rw [h1]; rfl)
  rw [h1]
  rfl

theorem subtree_children_disjoint (db : Db)
    (hnd : (db.categories.map (fun c => c.cid)).Nodup) {c1 c2 : Category}
    {j : Nat} (h1 : c1 ∈ childrenOf db j) (h2 : c2 ∈ childrenOf db j)
    (hne : c1.cid ≠ c2.cid) (hfinj : FiniteChain db j) :
    Disjoint (subtreeF db c1.cid) (subtreeF db c2.cid) := by
  rw [Finset.disjoint_left]
  intro x hx1 hx2
  obtain ⟨hc1mem, hp1⟩ := (mem_childrenOf db).mp h1
  obtain ⟨hc2mem, hp2⟩ := (mem_childrenOf db).mp h2
  have hc1c : c1.cid ∈ db.categories.map (fun c => c.cid) :=
    List.mem_map_of_mem _ hc1mem
  have hc2c : c2.cid ∈ db.categories.map (fun c => c.cid) :=
    List.mem_map_of_mem _ hc2mem
  obtain ⟨hxcids, k1, hk1⟩ := (mem_subtreeF db hc1c).mp hx1
  obtain ⟨-, k2, hk2⟩ := (mem_subtreeF db hc2c).mp hx2
  have hfinx : FiniteChain db x :=
    FiniteChain_of_descendant db
      (Descendant.trans' db ⟨k1, hk1⟩ (descendant_child db hnd h1)) hfinj
  have hs1 : ancestor db x (k1 + 1) = some j := by
    rw [show ancestor db x (k1 + 1) = (ancestor db x k1).bind (parentOf db)
          from rfl, hk1, Option.some_bind, parentOf_self db hc1mem hnd, hp1]
  have hs2 : ancestor db x (k2 + 1) = some j := by
    rw [show ancestor db x (k2 + 1) = (ancestor db x k2).bind (parentOf db)
          from rfl, hk2, Option.some_bind, parentOf_self db hc2mem hnd, hp2]
  have hne12 : k1 ≠ k2 := by
    intro hEq
    rw [hEq, hk2] at hk1
    exact hne (by simpa using hk1.symm)
  rcases Nat.lt_or_ge k1 k2 with hlt | hge
  · exact no_repeat_of_finite db hfinx (k1 + 1) (k2 + 1) (by omega)
      (by rw [hs2]; rfl) (hs1.trans hs2.symm)
  · exact no_repeat_of_finite db hfinx (k2 + 1) (k1 + 1) (by omega)
      (by rw [hs1]; rfl) (hs2.trans hs1.symm)

theorem mem_unionS (db : Db) (l : List Nat) (x : Nat) :
    x ∈ unionS db l ↔ ∃ j ∈ l, x ∈ subtreeF db j := by
  induction l with
  | nil => simp [unionS]
  | cons a t ih =>
      show x ∈ subtreeF db a ∪ unionS db t ↔ _
      rw [Finset.mem_union, ih]
      simp

theorem unionS_append (db : Db) (l1 l2 : List Nat) :
    unionS db (l1 ++ l2) = unionS db l1 ∪ unionS db l2 := by
  induction l1 with
  | nil => simp [unionS]
  | cons a t ih =>
      show subtreeF db a ∪ unionS db (t ++ l2) = _
      rw [ih]
      show _ = subtreeF db a ∪ unionS db t ∪ unionS db l2
      rw [Finset.union_assoc]

theorem measureOf_append (db : Db) (l1 l2 : List Nat) :
    measureOf db (l1 ++ l2) = measureOf db l1 + measureOf db l2 := by
  simp [measureOf]

theorem card_unionS (db : Db) (l : List Nat)
    (hpw : l.Pairwise (fun a b => Disjoint (subtreeF db a) (subtreeF db b))) :
    (unionS db l).card = measureOf db l := by
  induction l with
  | nil => simp [unionS, measureOf]
  | cons a t ih =>
      rw [List.pairwise_cons] at hpw
      have hdis : Disjoint (subtreeF db a) (unionS db t) := by
        rw [Finset.disjoint_left]
        intro x hxa hxu
        obtain ⟨j, hj, hxj⟩ := (mem_unionS db t x).mp hxu
        exact (Finset.disjoint_left.mp (hpw.1 j hj)) hxa hxj
      show (subtreeF db a ∪ unionS db t).card = _
      rw [Finset.card_union_of_disjoint hdis, ih hpw.2]
      simp [measureOf]

theorem subtreeF_eq_insert (db : Db)
    (hnd : (db.categories.map (fun c => c.cid)).Nodup) {j : Nat}
    (hj : j ∈ db.categories.map (fun c => c.cid)) :
    subtreeF db j =
      insert j (unionS db ((childrenOf db j).map (fun c => c.cid))) := by
  ext x
  rw [Finset.mem_insert, mem_unionS]
  constructor
  · intro hx
    rcases subtree_decomp db hj hx with rfl | ⟨c, hc, hxc⟩
    · left; rfl
    · right; exact ⟨c.cid, List.mem_map_of_mem _ hc, hxc⟩
  · rintro (rfl | ⟨y, hy, hxy⟩)
    · exact self_mem_subtreeF db hj
    · obtain ⟨c, hc, rfl⟩ := List.mem_map.mp hy
      exact subtree_child_subset db hnd hc hj hxy

theorem children_cids_nodup (db : Db)
    (hnd : (db.categories.map (fun c => c.cid)).Nodup) (j : Nat) :
    ((childrenOf db j).map (fun c => c.cid)).Nodup := by
  have hsub : List.Sublist ((childrenOf db j).map (fun c => c.cid))
      (db.categories.map (fun c => c.cid)) :=
    (List.filter_sublist _).map _
  exact hnd.sublist hsub

theorem children_subtrees_pairwise (db : Db)
    (hnd : (db.categories.map (fun c => c.cid)).Nodup) (j : Nat)
    (hfinj : FiniteChain db j) :
    ((childrenOf db j).map (fun c => c.cid)).Pairwise
      (fun a b => Disjoint (subtreeF db a) (subtreeF db b)) := by
  rw [List.pairwise_map]
  have hnd2 : ((childrenOf db j).map (fun c => c.cid)).Pairwise (· ≠ ·) :=
    children_cids_nodup db hnd j
  rw [List.pairwise_map] at hnd2
  exact List.Pairwise.imp_of_mem
    (fun {c1} {c2} hm1 hm2 hne =>
      subtree_children_disjoint db hnd hm1 hm2 hne hfinj) hnd2

theorem j_not_mem_children_union (db : Db)
    (hnd : (db.categories.map (fun c => c.cid)).Nodup) {j : Nat}
    (hfinj : FiniteChain db j) :
    j ∉ unionS db ((childrenOf db j).map (fun c => c.cid)) := by
  intro hmem
  obtain ⟨y, hy, hxy⟩ := (mem_unionS db _ j).mp hmem
  obtain ⟨c, hc, rfl⟩ := List.mem_map.mp hy
  exact subtree_child_not_mem db hnd hc hfinj hxy

theorem card_subtreeF (db : Db)
    (hnd : (db.categories.map (fun c => c.cid)).Nodup) {j : Nat}
    (hj : j ∈ db.categories.map (fun c => c.cid)) (hfinj : FiniteChain db j) :
    (subtreeF db j).card =
      1 + measureOf db ((childrenOf db j).map (fun c => c.cid)) := by
  rw [subtreeF_eq_insert db hnd hj,
      Finset.card_insert_of_not_mem (j_not_mem_children_union db hnd hfinj),
      card_unionS db _ (children_subtrees_pairwise db hnd j hfinj)]
  omega

theorem dfs_run (db : Db) (root : Category)
    (hnd : (db.categories.map (fun c => c.cid)).Nodup)
    (hfin : FiniteChain db root.cid) :
    ∀ (fuel : Nat) (V stack : List Nat),
      (∀ j ∈ stack, j ∈ db.categories.map (fun c => c.cid) ∧
        Descendant db j root.cid) →
      stack.Pairwise (fun a b => Disjoint (subtreeF db a) (subtreeF db b)) →
      (∀ v ∈ V, ∀ j ∈ stack, v ∉ subtreeF db j) →
      measureOf db stack < fuel →
      ∃ W : List Nat,
        dfsLoop db ((V.map (batchesOfCategory db)).flatten) stack fuel =
          ((V ++ W).map (batchesOfCategory db)).flatten ∧
        W.Nodup ∧ (∀ w ∈ W, w ∉ V) ∧ W.toFinset = unionS db stack := by
  intro fuel
  induction fuel with
  | zero => intro V stack _ _ _ hM; omega
  | succ f ih =>
      intro V stack hstk hpw hVdis hM
      by_cases hst : stack = []
      · subst hst
        refine ⟨[], ?_, List.nodup_nil, by simp, by simp [unionS]⟩
        simp [dfsLoop]
      · obtain ⟨D, curr, rfl⟩ : ∃ D curr, stack = D ++ [curr] := by
          rcases List.eq_nil_or_concat stack with h | ⟨D, curr, h⟩
          · exact absurd h hst
          · exact ⟨D, curr, by simpa [List.concat_eq_append] using h⟩
        have hcurr_mem : curr ∈ D ++ [curr] := by simp
        obtain ⟨hcurr_cids, hcurr_desc⟩ := hstk curr hcurr_mem
        have hfin_curr : FiniteChain db curr :=
          FiniteChain_of_descendant db hcurr_desc hfin
        have hstep : dfsLoop db ((V.map (batchesOfCategory db)).flatten)
            (D ++ [curr]) (f + 1) =
            dfsLoop db
              (((V.map (batchesOfCategory db)).flatten) ++
                batchesOfCategory db curr)
              (D ++ (childrenOf db curr).map (fun c => c.cid)) f := by
          simp only [dfsLoop, List.getLast?_concat, List.dropLast_concat]
        have hstk2 : ∀ j ∈ D ++ (childrenOf db curr).map (fun c => c.cid),
            j ∈ db.categories.map (fun c => c.cid) ∧
              Descendant db j root.cid := by
          intro j hj
          rcases List.mem_append.mp hj with hjD | hjCH
          · exact hstk j (List.mem_append.mpr (Or.inl hjD))
          · obtain ⟨c, hc, rfl⟩ := List.mem_map.mp hjCH
            have hcmem := ((mem_childrenOf db).mp hc).1
            refine ⟨List.mem_map_of_mem _ hcmem, ?_⟩
            exact Descendant.trans' db (descendant_child db hnd hc) hcurr_desc
        have hpwsplit := (List.pairwise_append).mp hpw
        have hpw2 : (D ++ (childrenOf db curr).map (fun c => c.cid)).Pairwise
            (fun a b => Disjoint (subtreeF db a) (subtreeF db b)) := by
          rw [List.pairwise_append]
          refine ⟨hpwsplit.1,
            children_subtrees_pairwise db hnd curr hfin_curr, ?_⟩
          intro a ha b hb
          obtain ⟨c, hc, rfl⟩ := List.mem_map.mp hb
          have hsub := subtree_child_subset db hnd hc hcurr_cids
          have hdisj_ac : Disjoint (subtreeF db a) (subtreeF db curr) :=
            hpwsplit.2.2 a ha curr (by simp)
          exact hdisj_ac.mono_right hsub
        have hVdis2 : ∀ v ∈ V ++ [curr],
            ∀ j ∈ D ++ (childrenOf db curr).map (fun c => c.cid),
              v ∉ subtreeF db j := by
          intro v hv j hj
          rcases List.mem_append.mp hv with hvV | hvc
          · rcases List.mem_append.mp hj with hjD | hjCH
            · exact hVdis v hvV j (List.mem_append.mpr (Or.inl hjD))
            · obtain ⟨c, hc, rfl⟩ := List.mem_map.mp hjCH
              intro hmem
              exact hVdis v hvV curr (by simp)
                (subtree_child_subset db hnd hc hcurr_cids hmem)
          · have hvc' : v = curr := by simpa using hvc
            rcases List.mem_append.mp hj with hjD | hjCH
            · have hdisj := hpwsplit.2.2 j hjD curr (by simp)
              intro hmem
              rw [hvc'] at hmem
              exact (Finset.disjoint_right.mp hdisj)
                (self_mem_subtreeF db hcurr_cids) hmem
            · obtain ⟨c, hc, rfl⟩ := List.mem_map.mp hjCH
              rw [hvc']
              exact subtree_child_not_mem db hnd hc hfin_curr
        have hM2 : measureOf db
            (D ++ (childrenOf db curr).map (fun c => c.cid)) < f := by
          have e1 : measureOf db (D ++ [curr]) =
              measureOf db D + (subtreeF db curr).card := by
            rw [measureOf_append]; simp [measureOf]
          have e2 : measureOf db
              (D ++ (childrenOf db curr).map (fun c => c.cid)) =
              measureOf db D +
                measureOf db ((childrenOf db curr).map (fun c => c.cid)) :=
            measureOf_append db _ _
          have e3 := card_subtreeF db hnd hcurr_cids hfin_curr
          omega
        obtain ⟨W', hrun, hWnd, hWV, hWfin⟩ :=
          ih (V ++ [curr]) (D ++ (childrenOf db curr).map (fun c => c.cid))
            hstk2 hpw2 hVdis2 hM2
        refine ⟨curr :: W', ?_, ?_, ?_, ?_⟩
        · rw [hstep]
          have hacc : (V.map (batchesOfCategory db)).flatten ++
              batchesOfCategory db curr =
              ((V ++ [curr]).map (batchesOfCategory db)).flatten := by
            rw [List.map_append, List.flatten_append]
            simp
          rw [hacc, hrun, List.append_assoc]
          rfl
        · rw [List.nodup_cons]
          exact ⟨fun hmem => (hWV curr hmem) (by simp), hWnd⟩
        · intro w hw
          rcases List.mem_cons.mp hw with rfl | hw'
          · intro hcV
            exact hVdis w hcV w (by simp) (self_mem_subtreeF db hcurr_cids)
          · intro hcV
            exact hWV w hw' (List.mem_append.mpr (Or.inl hcV))
        · show (curr :: W').toFinset = unionS db (D ++ [curr])
          rw [List.toFinset_cons, hWfin, unionS_append, unionS_append]
          have h1 : unionS db [curr] = subtreeF db curr := by
            show subtreeF db curr ∪ ∅ = subtreeF db curr
            simp
          rw [h1, subtreeF_eq_insert db hnd hcurr_cids, Finset.union_insert]

theorem mem_batchesOfCategory (db : Db) (i : Nat) (b : Batch) :
    b ∈ batchesOfCategory db i ↔
      b ∈ db.batches ∧ ∃ u, lookupUnit db b.unit_id = some u ∧
        u.category = i := by
  rw [batchesOfCategory, List.mem_filter]
  constructor
  · rintro ⟨hb, hp⟩
    refine ⟨hb, ?_⟩
    cases hl : lookupUnit db b.unit_id with
    | none => rw [hl] at hp; cases hp
    | some u =>
        rw [hl] at hp
        exact ⟨u, rfl, by simpa using hp⟩
  · rintro ⟨hb, u, hu, hc⟩
    refine ⟨hb, ?_⟩
    rw [hu]
    simpa using hc

/-- Claim C7 (confirmed): `get_category_batches` returns the empty collection
whenever the safety check fails, and otherwise returns, without duplicates,
exactly the batches whose unit's category is the root or one of its
descendants (a node whose parent chain reaches the root). -/
theorem C7_get_category_batches (db : Db) (root : Category)
    (hmem : root ∈ db.categories)
    (hnd : (db.categories.map (fun c => c.cid)).Nodup)
    (hbnd : (db.batches.map (fun b => b.bid)).Nodup) :
    (is_category_safe db root = false → get_category_batches db root = []) ∧
    (is_category_safe db root = true →
      (get_category_batches db root).Nodup ∧
      ∀ b, b ∈ get_category_batches db root ↔
        (b ∈ db.batches ∧ ∃ u, lookupUnit db b.unit_id = some u ∧
          Descendant db u.category root.cid)) := by
  constructor
  · intro h
    rw [get_category_batches, if_pos h]
  · intro hsafe
    have hfin : FiniteChain db root.cid := by
      rcases finite_or_cycle db root.cid with h | h
      · exact h
      · have hF := (C6_is_category_safe db root hmem hnd).2.1 h
        rw [hF] at hsafe
        cases hsafe
    have hrc : root.cid ∈ db.categories.map (fun c => c.cid) :=
      List.mem_map_of_mem _ hmem
    have hcard : (subtreeF db root.cid).card ≤ db.categories.length := by
      have hsub : subtreeF db root.cid ⊆
          (db.categories.map (fun c => c.cid)).toFinset := by
        intro x hx
        rw [List.mem_toFinset]
        exact ((mem_subtreeF db hrc).mp hx).1
      calc (subtreeF db root.cid).card
          ≤ (db.categories.map (fun c => c.cid)).toFinset.card :=
            Finset.card_le_card hsub
        _ ≤ (db.categories.map (fun c => c.cid)).length :=
            List.toFinset_card_le _
        _ = db.categories.length := List.length_map _ _
    have hM : measureOf db [root.cid] < db.categories.length + 1 := by
      have h0 : measureOf db [root.cid] = (subtreeF db root.cid).card := by
        simp [measureOf]
      omega
    obtain ⟨W, hrun, hWnd, hWV, hWfin⟩ :=
      dfs_run db root hnd hfin (db.categories.length + 1) [] [root.cid]
        (by
          intro j hj
          have hj0 : j = root.cid := by simpa using hj
          subst hj0
          exact ⟨hrc, ⟨0, rfl⟩⟩)
        (List.pairwise_singleton _ _)
        (by intro v hv; cases hv)
        hM
    have hout : get_category_batches db root =
        (W.map (batchesOfCategory db)).flatten := by
      rw [get_category_batches, if_neg (by simp [hsafe])]
      have h0 := hrun
      simp only [List.map_nil, List.flatten_nil, List.nil_append] at h0
      exact h0
    have hBnodup : db.batches.Nodup := List.Nodup.of_map _ hbnd
    constructor
    · rw [hout, List.nodup_flatten]
      constructor
      · intro l hl
        obtain ⟨w, hw, rfl⟩ := List.mem_map.mp hl
        exact hBnodup.filter _
      · rw [List.pairwise_map]
        refine List.Pairwise.imp_of_mem ?_ hWnd
        intro a b ha hb hne
        intro x hx1 hx2
        obtain ⟨-, u1, hu1, hc1⟩ := (mem_batchesOfCategory db a x).mp hx1
        obtain ⟨-, u2, hu2, hc2⟩ := (mem_batchesOfCategory db b x).mp hx2
        rw [hu1] at hu2
        have hu12 : u1 = u2 := by simpa using hu2
        exact hne (hc1 ▸ hu12 ▸ hc2 ▸ rfl)
    · intro b
      rw [hout, List.mem_flatten]
      constructor
      · rintro ⟨l, hl, hb⟩
        obtain ⟨w, hw, rfl⟩ := List.mem_map.mp hl
        obtain ⟨hbb, u, hu, hcat⟩ := (mem_batchesOfCategory db w b).mp hb
        have hwm : w ∈ subtreeF db root.cid := by
          have hwt := List.mem_toFinset.mpr hw
          rw [hWfin] at hwt
          simpa [unionS] using hwt
        obtain ⟨-, hdesc⟩ := (mem_subtreeF db hrc).mp hwm
        exact ⟨hbb, u, hu, hcat ▸ hdesc⟩
      · rintro ⟨hbb, u, hu, hdesc⟩
        refine ⟨batchesOfCategory db u.category, List.mem_map_of_mem _ ?_,
          (mem_batchesOfCategory db _ b).mpr ⟨hbb, u, hu, rfl⟩⟩
        have hmemS : u.category ∈ subtreeF db root.cid :=
          (mem_subtreeF db hrc).mpr
            ⟨mem_cids_of_descendant db hdesc hrc, hdesc⟩
        have hWt : u.category ∈ W.toFinset := by
          rw [hWfin]
          simpa [unionS] using hmemS
        exact List.mem_toFinset.mp hWt

/-- Witness for C7: an unsafe (self-referencing) root yields the empty list,
and a safe two-level tree yields a duplicate-free list characterized by
descendant membership. -/
theorem C7_witness :
    get_category_batches db7b ⟨0, "loop", some 0⟩ = [] ∧
    ((get_category_batches db7 ⟨0, "top", none⟩).Nodup ∧
      ∀ b, b ∈ get_category_batches db7 ⟨0, "top", none⟩ ↔
        (b ∈ db7.batches ∧ ∃ u, lookupUnit db7 b.unit_id = some u ∧
          Descendant db7 u.category 0)) :=
  ⟨(C7_get_category_batches db7b ⟨0, "loop", some 0⟩ (by decide) (by decide)
      (by decide)).1 (by decide),
   (C7_get_category_batches db7 ⟨0, "top", none⟩ (by decide) (by decide)
      (by decide)).2 (by decide)⟩

/-! ### Permutation behavior of the combinator (claim C1) -/

theorem allIn_cons (b : Nat) (p : Term × Finset Nat)
    (rs : List (Term × Finset Nat)) :
    allIn b (p :: rs) ↔ b ∈ p.2 ∧ allIn b rs := by
  simp [allIn]

theorem foldRun (db : Db) (toks : List String) :
    ∀ (rs : List (Term × Finset Nat)) (st : SearchState),
      toks.map (resolveToken db) = rs.map some →
      (∀ p ∈ rs, p.2 ≠ ∅) →
      (rs.map Prod.fst).Nodup →
      (∀ p ∈ rs, p.1 ∉ st.terms) →
      (∃ b0, (st.output_set = ∅ ∨ b0 ∈ st.output_set) ∧ allIn b0 rs) →
      ∀ b, b ∈ (toks.foldl (processToken db) st).output_set ↔
        ((st.output_set = ∅ ∨ b ∈ st.output_set) ∧
         (st.output_set ≠ ∅ ∨ rs ≠ []) ∧ allIn b rs) := by
  induction toks with
  | nil =>
      intro rs st hmap hne hnd hterms hcom b
      have hrs : rs = [] := by
        cases rs with
        | nil => rfl
        | cons q qs => simp at hmap
      subst hrs
      rw [List.foldl_nil]
      constructor
      · intro hb
        refine ⟨Or.inr hb, Or.inl (Finset.ne_empty_of_mem hb), ?_⟩
        intro p hp
        cases hp
      · rintro ⟨h1, h2, -⟩
        rcases h2 with h2 | h2
        · rcases h1 with h1 | h1
          · exact absurd h1 h2
          · exact h1
        · exact absurd rfl h2
  | cons t ts ih =>
      intro rs st hmap hne hnd hterms hcom b
      cases rs with
      | nil => simp at hmap
      | cons q qs =>
          obtain ⟨tm, S⟩ := q
          simp only [List.map_cons, List.cons.injEq] at hmap
          obtain ⟨hres, hmap'⟩ := hmap
          have htm_notin : tm ∉ st.terms := by
            have h0 := hterms (tm, S) (by simp)
            simpa using h0
          have hSne : S ≠ ∅ := by
            have h0 := hne (tm, S) (by simp)
            simpa using h0
          have hnd_head : tm ∉ qs.map Prod.fst := by
            have h0 : (tm :: qs.map Prod.fst).Nodup := by simpa using hnd
            exact (List.nodup_cons.mp h0).1
          have hnd_tail : (qs.map Prod.fst).Nodup := by
            have h0 : (tm :: qs.map Prod.fst).Nodup := by simpa using hnd
            exact (List.nodup_cons.mp h0).2
          have hterms' : ∀ p ∈ qs, p.1 ∉ st.terms ++ [tm] := by
            intro p hp
            rw [List.mem_append]
            rintro (h | h)
            · exact hterms p (by simp [hp]) h
            · have hp1 : p.1 = tm := by simpa using h
              exact hnd_head (hp1 ▸ List.mem_map_of_mem Prod.fst hp)
          obtain ⟨b0, hb0or, hb0all⟩ := hcom
          rw [allIn_cons] at hb0all
          rw [List.foldl_cons]
          by_cases hout : st.output_set = ∅
          · have hstep : processToken db st t =
                ⟨S, st.terms ++ [tm]⟩ := by
              simp only [processToken, hres, if_neg htm_notin, if_neg hSne,
                if_pos hout]
            rw [hstep]
            have hIH := ih qs ⟨S, st.terms ++ [tm]⟩ hmap'
              (fun p hp => hne p (by simp [hp])) hnd_tail hterms'
              ⟨b0, Or.inr hb0all.1, hb0all.2⟩ b
            rw [hIH, allIn_cons]
            constructor
            · rintro ⟨h1, -, h3⟩
              rcases h1 with h1 | h1
              · exact absurd h1 hSne
              · exact ⟨Or.inl hout, Or.inr (by simp), h1, h3⟩
            · rintro ⟨-, -, h1, h3⟩
              exact ⟨Or.inr h1, Or.inl hSne, h3⟩
          · have hstep : processToken db st t =
                ⟨st.output_set ∩ S, st.terms ++ [tm]⟩ := by
              simp only [processToken, hres, if_neg htm_notin, if_neg hSne,
                if_neg hout]
            rw [hstep]
            have hb0out : b0 ∈ st.output_set := by
              rcases hb0or with h | h
              · exact absurd h hout
              · exact h
            have hb0int : b0 ∈ st.output_set ∩ S :=
              Finset.mem_inter.mpr ⟨hb0out, hb0all.1⟩
            have hIntNe : st.output_set ∩ S ≠ ∅ :=
              Finset.ne_empty_of_mem hb0int
            have hIH := ih qs ⟨st.output_set ∩ S, st.terms ++ [tm]⟩ hmap'
              (fun p hp => hne p (by simp [hp])) hnd_tail hterms'
              ⟨b0, Or.inr hb0int, hb0all.2⟩ b
            rw [hIH, allIn_cons]
            constructor
            · rintro ⟨h1, -, h3⟩
              rcases h1 with h1 | h1
              · exact absurd h1 hIntNe
              · obtain ⟨hbo, hbS⟩ := Finset.mem_inter.mp h1
                exact ⟨Or.inr hbo, Or.inl hout, hbS, h3⟩
            · rintro ⟨h1, -, h2, h3⟩
              rcases h1 with h1 | h1
              · exact absurd h1 hout
              · exact ⟨Or.inr (Finset.mem_inter.mpr ⟨h1, h2⟩), Or.inl hIntNe,
                  h3⟩

theorem exists_preimage_of_perm_map_some
    {l : List (Option (Term × Finset Nat))} {rs : List (Term × Finset Nat)}
    (h : l.Perm (rs.map some)) :
    ∃ rs2 : List (Term × Finset Nat), l = rs2.map some ∧ rs2.Perm rs := by
  refine ⟨l.reduceOption, ?_, ?_⟩
  · have hall : ∀ x ∈ l, ∃ a, x = some a := by
      intro x hx
      have hx2 := h.mem_iff.mp hx
      obtain ⟨a, -, rfl⟩ := List.mem_map.mp hx2
      exact ⟨a, rfl⟩
    clear h
    induction l with
    | nil => rfl
    | cons x xs ih =>
        obtain ⟨a, rfl⟩ := hall x (by simp)
        rw [List.reduceOption_cons_of_some, List.map_cons]
        rw [← ih (fun y hy => hall y (by simp [hy]))]
  · have h2 := h.filterMap id
    have h3 : (rs.map some).filterMap id = rs := by
      rw [List.filterMap_map]
      simp
    rw [h3] at h2
    exact h2

/-- Claim C1 (corrected): `wide_db_search` is permutation-insensitive for
tokens that resolve to non-empty result sets with pairwise distinct canonical
terms *provided the result sets share a common batch*: the result is then the
intersection of all per-token sets.  Without that proviso the claim is false
(see the counterexample): once an intersection empties the running set, the
next productive token re-seeds it, so order matters.  Inserting a token that
matches no classifier anywhere in the list leaves the result set unchanged;
a token that matches a classifier with zero batches, however, is recorded in
the term cache and can deduplicate a later token, so it is not inert in
general. -/
theorem C1_wide_db_search_perm (db : Db) (toks toks' : List String)
    (rs : List (Term × Finset Nat))
    (hmap : toks.map (resolveToken db) = rs.map some)
    (hne : ∀ p ∈ rs, p.2 ≠ ∅)
    (hnd : (rs.map Prod.fst).Nodup)
    (hcommon : ∃ b0, allIn b0 rs)
    (hperm : toks'.Perm toks) :
    (wide_db_search db toks').1 = (wide_db_search db toks).1 ∧
    (∀ b, b ∈ (wide_db_search db toks).1 ↔ (rs ≠ [] ∧ allIn b rs)) ∧
    (∀ (pre post : List String) (t0 : String), resolveToken db t0 = none →
      (wide_db_search db (pre ++ t0 :: post)).1 =
        (wide_db_search db (pre ++ post)).1) := by
  obtain ⟨b0, hb0⟩ := hcommon
  have hchar : ∀ (tk : List String) (r : List (Term × Finset Nat)),
      tk.map (resolveToken db) = r.map some →
      (∀ p ∈ r, p.2 ≠ ∅) → (r.map Prod.fst).Nodup → allIn b0 r →
      ∀ b, b ∈ (wide_db_search db tk).1 ↔ (r ≠ [] ∧ allIn b r) := by
    intro tk r hm hn hd hall b
    have h0 := foldRun db tk r ⟨∅, []⟩ hm hn hd
      (by intro p hp; simp) ⟨b0, Or.inl rfl, hall⟩ b
    show b ∈ (tk.foldl (processToken db) ⟨∅, []⟩).output_set ↔ _
    rw [h0]
    simp
  have part2 := hchar toks rs hmap hne hnd hb0
  have hmap2 : (toks'.map (resolveToken db)).Perm (rs.map some) := by
    rw [← hmap]
    exact hperm.map _
  obtain ⟨rs', hmap', hpermrs⟩ := exists_preimage_of_perm_map_some hmap2
  have hne' : ∀ p ∈ rs', p.2 ≠ ∅ := fun p hp =>
    hne p (hpermrs.mem_iff.mp hp)
  have hnd' : (rs'.map Prod.fst).Nodup := ((hpermrs.map Prod.fst).nodup_iff).mpr hnd
  have hall' : allIn b0 rs' := fun p hp => hb0 p (hpermrs.mem_iff.mp hp)
  have part1' := hchar toks' rs' hmap' hne' hnd' hall'
  refine ⟨?_, part2, ?_⟩
  · ext b
    rw [part1' b, part2 b]
    have hlen : (rs' = []) ↔ (rs = []) := by
      rw [← List.length_eq_zero, ← List.length_eq_zero, hpermrs.length_eq]
    have hallIff : allIn b rs' ↔ allIn b rs :=
      ⟨fun h p hp => h p (hpermrs.mem_iff.mpr hp),
       fun h p hp => h p (hpermrs.mem_iff.mp hp)⟩
    rw [hallIff]
    constructor
    · rintro ⟨h1, h2⟩; exact ⟨fun h => h1 (hlen.mpr h), h2⟩
    · rintro ⟨h1, h2⟩; exact ⟨fun h => h1 (hlen.mp h), h2⟩
  · intro pre post t0 h0
    show ((pre ++ t0 :: post).foldl (processToken db) ⟨∅, []⟩).output_set = _
    rw [List.foldl_append, List.foldl_cons,
      processToken_of_none db _ t0 h0, ← List.foldl_append]
    rfl

/-- Counterexample for C1 as stated: three tokens resolving to the non-empty
sets {1}, {2}, {1} with pairwise distinct canonical terms, yet two orderings
of the same tokens produce different result sets ({1} versus the empty set). -/
theorem C1_counterexample :
    resolveToken db1 "alpha" = some (Term.str "alpha", {1}) ∧
    resolveToken db1 "beta" = some (Term.str "beta", {2}) ∧
    resolveToken db1 "gamma" = some (Term.str "gamma", {1}) ∧
    ({1} : Finset Nat) ≠ ∅ ∧ ({2} : Finset Nat) ≠ ∅ ∧
    [Term.str "alpha", Term.str "beta", Term.str "gamma"].Nodup ∧
    List.Perm ["alpha", "gamma", "beta"] ["alpha", "beta", "gamma"] ∧
    (wide_db_search db1 ["alpha", "gamma", "beta"]).1 ≠
      (wide_db_search db1 ["alpha", "beta", "gamma"]).1 := by
  refine ⟨by decide, by decide, by decide, by decide, by decide, by decide,
    by decide, by decide⟩

/-- Witness for C1 at a concrete snapshot: two tokens with a common batch. -/
theorem C1_witness :
    (wide_db_search db1 ["gamma", "alpha"]).1 =
      (wide_db_search db1 ["alpha", "gamma"]).1 ∧
    (∀ b, b ∈ (wide_db_search db1 ["alpha", "gamma"]).1 ↔
      (([(Term.str "alpha", ({1} : Finset Nat)), (Term.str "gamma", {1})] :
          List (Term × Finset Nat)) ≠ [] ∧
        allIn b [(Term.str "alpha", {1}), (Term.str "gamma", {1})])) ∧
    (∀ (pre post : List String) (t0 : String), resolveToken db1 t0 = none →
      (wide_db_search db1 (pre ++ t0 :: post)).1 =
        (wide_db_search db1 (pre ++ post)).1) :=
  C1_wide_db_search_perm db1 ["alpha", "gamma"] ["gamma", "alpha"]
    [(Term.str "alpha", {1}), (Term.str "gamma", {1})]
    (by decide) (by decide) (by decide) ⟨1, by decide⟩ (by decide)

/-! ### The stage classifier inside the resolver (claim C3) -/

/-- Claim C3 (code bug): `get_stage_via_name` honours its documented contract
and returns ordinal 0 for the token "unopened" (length 8, matching no tag and
no category here, capitalized to a prefix of "Unopened"), and the snapshot
holds a batch at stage 0; yet the resolver of `wide_db_search` guards the
stage branch with the Python truthiness of `stage := get_stage_via_name(...)`,
so the falsy ordinal 0 is discarded, the token matches nothing, and the query
returns no batches and no terms. -/
theorem C3_stage_zero_dropped :
    get_stage_via_name "unopened" = some 0 ∧
    get_tag_via_name db3 "unopened" = none ∧
    get_category_via_name db3 "unopened" = none ∧
    (get_batches_of_stage db3 0).map (fun b => b.bid) = [1] ∧
    resolveToken db3 "unopened" = none ∧
    wide_db_search db3 ["unopened"] = (∅, []) := by
  refine ⟨by decide, by decide, by decide, by decide, by decide, by decide⟩

/-! ### The tag classifier (claim C4) -/

/-- Claim C4 (corrected): the Tag classifier matches if and only if *exactly
one* Tag row's name equals the token under *case-sensitive* comparison
(`Tag.objects.get(name=...)`; `get` raises on zero and on multiple rows and
the `except` turns both into `None`), and on a match the resolver returns the
batches joined to that tag through the TagAssignment rows. -/
theorem C4_tag_exact_match (db : Db) (tok : String) :
    ((get_tag_via_name db tok).isSome ↔
      db.tags.countP (fun t => decide (t.name = tok)) = 1) ∧
    ∀ t, get_tag_via_name db tok = some t →
      t ∈ db.tags ∧ t.name = tok ∧
      resolveToken db tok =
        some (Term.str t.name, (get_tagged_batches db t).toFinset) ∧
      ∀ bid, bid ∈ (get_tagged_batches db t).toFinset ↔
        ∃ a ∈ db.assignments, a.tag_id = t.tid ∧ a.batch_id = bid := by
  have hcount : db.tags.countP (fun t => decide (t.name = tok)) =
      (db.tags.filter (fun t => decide (t.name = tok))).length :=
    List.countP_eq_length_filter _ _
  constructor
  · rw [hcount]
    rcases hfil : db.tags.filter (fun t => decide (t.name = tok)) with
      _ | ⟨t1, _ | ⟨t2, rest⟩⟩
    · rw [get_tag_via_name, hfil]
      simp
    · rw [get_tag_via_name, hfil]
      simp
    · rw [get_tag_via_name, hfil]
      simp
  · intro t ht
    have hfil : db.tags.filter (fun t => decide (t.name = tok)) = [t] := by
      rw [get_tag_via_name] at ht
      rcases hf : db.tags.filter (fun t => decide (t.name = tok)) with
        _ | ⟨t1, _ | ⟨t2, rest⟩⟩ <;> rw [hf] at ht
      · cases ht
      · have h1 : t1 = t := by simpa using ht
        rw [hf, h1]
      · cases ht
    have hmem : t ∈ db.tags.filter (fun t => decide (t.name = tok)) := by
      rw [hfil]; simp
    rw [List.mem_filter] at hmem
    refine ⟨hmem.1, by simpa using hmem.2, ?_, ?_⟩
    · rw [resolveToken, ht]
    · intro bid
      rw [List.mem_toFinset, get_tagged_batches, List.mem_map]
      constructor
      · rintro ⟨a, ha, rfl⟩
        rw [List.mem_filter] at ha
        exact ⟨a, ha.1, by simpa using ha.2, rfl⟩
      · rintro ⟨a, ha, htag, rfl⟩
        exact ⟨a, List.mem_filter.mpr ⟨ha, by simpa using htag⟩, rfl⟩

/-- Counterexample for C4 as stated: the tag "Elite" equals the token "elite"
case-insensitively, yet the classifier does not match. -/
theorem C4_counterexample :
    (⟨0, "Elite"⟩ : Tag) ∈ db4.tags ∧
    strLower "Elite" = strLower "elite" ∧
    get_tag_via_name db4 "elite" = none := by
  refine ⟨by decide, by decide, by decide⟩

/-- Witness for C4 at a concrete snapshot. -/
theorem C4_witness :
    ((get_tag_via_name db4w "elite").isSome ↔
      db4w.tags.countP (fun t => decide (t.name = "elite")) = 1) ∧
    ((⟨0, "elite"⟩ : Tag) ∈ db4w.tags ∧ (⟨0, "elite"⟩ : Tag).name = "elite" ∧
      resolveToken db4w "elite" =
        some (Term.str (⟨0, "elite"⟩ : Tag).name,
          (get_tagged_batches db4w ⟨0, "elite"⟩).toFinset) ∧
      ∀ bid, bid ∈ (get_tagged_batches db4w ⟨0, "elite"⟩).toFinset ↔
        ∃ a ∈ db4w.assignments, a.tag_id = 0 ∧ a.batch_id = bid) :=
  ⟨(C4_tag_exact_match db4w "elite").1,
   (C4_tag_exact_match db4w "elite").2 ⟨0, "elite"⟩ (by decide)⟩

/-! ### The category classifier (claim C5) -/

/-- Claim C5 (corrected): for a non-empty token, the Category classifier drops
a trailing lowercase "s", and then matches if and only if *exactly one*
Category row's name contains the trimmed token case-insensitively
(`Category.objects.get(name__icontains=...)` raises on multiple rows and the
`except` yields `None`); on a match the resolver returns the
`get_category_batches` subtree collection of that category.  The claim's
"matches whenever one or more Categories contain the trimmed token" is false
for two or more. -/
theorem C5_category_unique_match (db : Db) (tok : String) (hne : tok ≠ "") :
    ((get_category_via_name db tok).isSome ↔
      db.categories.countP
        (fun c => icontains c.name (category_trim tok)) = 1) ∧
    ∀ c, get_category_via_name db tok = some c →
      c ∈ db.categories ∧ icontains c.name (category_trim tok) = true ∧
      (get_tag_via_name db tok = none →
        resolveToken db tok = some (Term.cat c.cid,
          ((get_category_batches db c).map (fun b => b.bid)).toFinset)) := by
  have hdata : ¬ (tok.data = []) := by
    intro h
    apply hne
    cases tok with
    | mk d =>
        show String.mk d = String.mk []
        rw [show d = [] from h]
  have hcat : get_category_via_name db tok =
      match db.categories.filter
        (fun c => icontains c.name (category_trim tok)) with
      | [c] => some c
      | _ => none := by
    rw [get_category_via_name, if_neg hdata]
  have hcount : db.categories.countP
      (fun c => icontains c.name (category_trim tok)) =
      (db.categories.filter
        (fun c => icontains c.name (category_trim tok))).length :=
    List.countP_eq_length_filter _ _
  constructor
  · rw [hcount, hcat]
    rcases hfil : db.categories.filter
        (fun c => icontains c.name (category_trim tok)) with
      _ | ⟨c1, _ | ⟨c2, rest⟩⟩ <;> rw [hfil] <;> simp
  · intro c hc
    have hc0 := hc
    rw [hcat] at hc
    have hfil : db.categories.filter
        (fun c => icontains c.name (category_trim tok)) = [c] := by
      rcases hf : db.categories.filter
          (fun c => icontains c.name (category_trim tok)) with
        _ | ⟨c1, _ | ⟨c2, rest⟩⟩ <;> rw [hf] at hc
      · cases hc
      · have h1 : c1 = c := by simpa using hc
        rw [hf, h1]
      · cases hc
    have hmem : c ∈ db.categories.filter
        (fun c => icontains c.name (category_trim tok)) := by
      rw [hfil]; simp
    rw [List.mem_filter] at hmem
    refine ⟨hmem.1, hmem.2, ?_⟩
    intro htag
    rw [resolveToken, htag, hc0]

/-- Counterexample for C5 as stated: two categories both contain "necron",
and the classifier yields no match. -/
theorem C5_counterexample :
    (⟨0, "Necrons", none⟩ : Category) ∈ db5.categories ∧
    (⟨1, "Necron Lords", none⟩ : Category) ∈ db5.categories ∧
    icontains "Necrons" (category_trim "necron") = true ∧
    icontains "Necron Lords" (category_trim "necron") = true ∧
    get_category_via_name db5 "necron" = none := by
  refine ⟨by decide, by decide, by decide, by decide, by decide⟩

/-- Witness for C5 at a concrete snapshot: the token "necrons" is trimmed to
"necron" and matched by the single category "Necrons". -/
theorem C5_witness :
    ((get_category_via_name db5w "necrons").isSome ↔
      db5w.categories.countP
        (fun c => icontains c.name (category_trim "necrons")) = 1) ∧
    ((⟨0, "Necrons", none⟩ : Category) ∈ db5w.categories ∧
      icontains (⟨0, "Necrons", none⟩ : Category).name
        (category_trim "necrons") = true ∧
      (get_tag_via_name db5w "necrons" = none →
        resolveToken db5w "necrons" = some (Term.cat 0,
          ((get_category_batches db5w ⟨0, "Necrons", none⟩).map
            (fun b => b.bid)).toFinset))) :=
  ⟨(C5_category_unique_match db5w "necrons" (by decide)).1,
   (C5_category_unique_match db5w "necrons" (by decide)).2
     ⟨0, "Necrons", none⟩ (by decide)⟩

/-! ### The two trailing-s trims (claim C8) -/

theorem mk_dropLast_ne (s : String) (h : s.data ≠ []) :
    String.mk s.data.dropLast ≠ s := by
  intro hEq
  have h1 : (String.mk s.data.dropLast).data = s.data := congrArg String.data hEq
  have h2 : s.data.dropLast = s.data := h1
  have h3 := congrArg List.length h2
  rw [List.length_dropLast] at h3
  have h4 : 0 < s.data.length := List.length_pos.mpr h
  omega

/-- Claim C8 (corrected): the Category classifier's trim drops the last
character exactly when it is the lowercase letter s, while the Unit-name
classifier's trim also drops an uppercase S (it lowercases the last character
first), so the two trims are *not* the same function of the token: they agree
exactly on the tokens where the Unit trim is a no-op or the token already ends
in lowercase s, and differ on every token ending in an uppercase S. -/
theorem C8_trims_agree_iff (s : String) :
    category_trim s = unit_trim s ↔
      (unit_trim s = s ∨ s.data.getLast? = some 's') := by
  have hcat : category_trim s = (match s.data.getLast? with
    | some c => if c = 's' then String.mk s.data.dropLast else s
    | none => s) := rfl
  have hunit : unit_trim s = (match s.data.getLast? with
    | some c => if c.toLower = 's' then String.mk s.data.dropLast else s
    | none => s) := rfl
  cases hl : s.data.getLast? with
  | none =>
      rw [hcat, hunit, hl]
      simp
  | some c =>
      have hne_nil : s.data ≠ [] := by
        intro h0
        rw [h0] at hl
        cases hl
      have hdrop := mk_dropLast_ne s hne_nil
      rw [hcat, hunit, hl]
      dsimp only
      by_cases hcs : c = 's'
      · subst hcs
        rw [if_pos rfl, if_pos (by decide)]
        simp
      · by_cases hlow : c.toLower = 's'
        · rw [if_neg hcs, if_pos hlow]
          constructor
          · intro h0
            exact absurd h0.symm hdrop
          · rintro (h0 | h0)
            · exact absurd h0 hdrop
            · have hc2 : c = 's' := by simpa using h0
              exact absurd hc2 hcs
        · rw [if_neg hcs, if_neg hlow]
          constructor
          · intro h0
            exact Or.inl rfl
          · intro h0
            rfl

/-- Counterexample for C8 as stated: the token "AS" is trimmed by the
Unit-name classifier but not by the Category classifier. -/
theorem C8_counterexample :
    unit_trim "AS" = "A" ∧ category_trim "AS" = "AS" ∧
    unit_trim "AS" ≠ category_trim "AS" := by
  refine ⟨by decide, by decide, by decide⟩

end DMG
